import Mathlib

/-!
Verification of the networking and session core of a Minecraft Bedrock
client (RakNet outbound queue, inbound reassembler, game-batch codec,
session state machine, world mirror).  The definitions below are a
shallow embedding of the TypeScript source: `Queue.sendFrame`,
`Client.compressPayload`, `Client.handleMessage` (ACK/NACK branch),
`FrameManager.handleOrderedFrame`, `FrameManager.handleFragment`,
`PacketHandler.readPacketId`, `PacketHandler.decodeGamePackets`,
`PlayerState.updateAttributes`, and the status assignments performed by
the packet handlers.  Buffers are lists of byte values (`List Nat`);
JavaScript fields that start out `undefined` are `Option`-valued.
-/

namespace BedrockClient

/-- Reliability modes of a RakNet frame.  Modelled from the spec: the frame
codec is an external library; the spec requires at least Unreliable,
ReliableOrdered and the sequenced / order-exclusive modes, with the standard
RakNet classification used below. -/
inductive Reliability where
  | unreliable
  | unreliableSequenced
  | reliable
  | reliableOrdered
  | reliableSequenced
deriving DecidableEq, Repr

namespace Reliability

/-- Sequenced modes reuse the channel order index and consume a sequence
index (`Frame.isSequenced` in the external codec). -/
def isSequenced : Reliability → Bool
  | unreliableSequenced => true
  | reliableSequenced => true
  | _ => false

/-- Order-exclusive modes consume a fresh channel order index
(`Frame.isOrderExclusive` in the external codec). -/
def isOrderExclusive : Reliability → Bool
  | reliableOrdered => true
  | _ => false

/-- Ordered frames are the sequenced or order-exclusive ones
(`Frame.isOrdered` in the external codec). -/
def isOrdered (r : Reliability) : Bool :=
  r.isSequenced || r.isOrderExclusive

/-- Reliable modes carry a reliable index (`Frame.isReliable` in the
external codec). -/
def isReliable : Reliability → Bool
  | reliable => true
  | reliableOrdered => true
  | reliableSequenced => true
  | _ => false

end Reliability

/-- Send priority of the outbound queue (`Priority` in the external codec):
Normal waits for the next tick flush, Immediate flushes at once. -/
inductive Priority where
  | normal
  | immediate
deriving DecidableEq, Repr

/-- A RakNet frame as manipulated by `Queue.ts` and `FrameManager.ts`.
Fields that the JavaScript `Frame` class leaves `undefined` until assigned
are `Option`-valued with default `none`. -/
structure Frame where
  reliability : Reliability
  orderChannel : Nat
  payload : List Nat
  orderIndex : Option Nat := none
  sequenceIndex : Option Nat := none
  reliableIndex : Option Nat := none
  fragmentId : Option Nat := none
  fragmentIndex : Option Nat := none
  fragmentSize : Option Nat := none
deriving DecidableEq, Repr

/-- Whether a frame carries fragmentation metadata
(`Frame.isFragmented` in the external codec: `fragmentSize > 0`,
where an undefined field compares as 0). -/
def Frame.isFragmented (f : Frame) : Bool :=
  f.fragmentSize.getD 0 > 0

/-- Serialized size of a frame inside a frame set: flags byte, 16-bit
length, then the optional reliable (3), sequenced (3), ordered (4) and
fragment (10) header fields, plus the payload.  Used only for the
MTU flush threshold in `addFrameToQueue`. -/
def Frame.getByteLength (f : Frame) : Nat :=
  3 + f.payload.length
    + (if f.reliability.isReliable then 3 else 0)
    + (if f.reliability.isSequenced then 3 else 0)
    + (if f.reliability.isOrdered then 4 else 0)
    + (if f.isFragmented then 10 else 0)

/-! ### Association-list maps

`Map` objects of the source (`outputBackupQueue`, `fragmentsQueue`,
`inputOrderingQueue`) are modelled as association lists with
overwrite-on-insert, so that `length` agrees with the JavaScript
`Map.size`. -/

/-- Lookup in an association list (first entry with the key). -/
def lookupMap {α : Type} (l : List (Nat × α)) (k : Nat) : Option α :=
  (l.find? (fun p => p.1 = k)).map (·.2)

/-- Remove every entry with the given key. -/
def eraseMap {α : Type} (l : List (Nat × α)) (k : Nat) : List (Nat × α) :=
  l.filter (fun p => p.1 ≠ k)

/-- Insert with overwrite: the JavaScript `Map.set`. -/
def insertMap {α : Type} (l : List (Nat × α)) (k : Nat) (v : α) : List (Nat × α) :=
  eraseMap l k ++ [(k, v)]

/-! ### Outbound queue (`Queue.ts`) -/

/-- MTU fixed at 1492 (`Queue.mtu`). -/
def mtu : Nat := 1492

/-- Maximum payload carried by a single frame before fragmentation:
`mtu - 6 - 23` in `sendFrame`. -/
def maxFragmentSize : Nat := mtu - 6 - 23

/-- State of the outbound queue.  `enqueued` is a ghost log of every frame
handed to `addFrameToQueue`, in order, used to state the index invariants;
`sent` is the log of frame sets handed to the transport. -/
structure QueueState where
  backup : List (Nat × List Frame) := []
  orderIdx : Nat → Nat := fun _ => 0
  seqIdx : Nat → Nat := fun _ => 0
  frameQueue : List Frame := []
  outputSequence : Nat := 0
  reliableCounter : Nat := 0
  fragmentCounter : Nat := 0
  sent : List (Nat × List Frame) := []
  enqueued : List Frame := []

/-- The initial queue state (fresh `Queue`). -/
def initQueue : QueueState := {}

/-- Pointwise update of a channel-indexed counter array. -/
def updAt (g : Nat → Nat) (k v : Nat) : Nat → Nat :=
  fun i => if i = k then v else g i

/-- Flush of the current frame set (`Queue.sendFrameQueue` together with
`Queue.sendFrameSet`): stamp the next sequence number, hand the set to the
transport, back up the reliable frames (only when there are any), and
clear the queue. -/
def sendFrameQueue (st : QueueState) : QueueState :=
  if st.frameQueue = [] then st
  else
    let seq := st.outputSequence
    let frames := st.frameQueue
    let reliableFrames := frames.filter (fun fr => fr.reliability.isReliable)
    { st with
      outputSequence := seq + 1
      frameQueue := []
      sent := st.sent ++ [(seq, frames)]
      backup := if reliableFrames = [] then st.backup
                else insertMap st.backup seq reliableFrames }

/-- Append a frame to the pending frame set (`Queue.addFrameToQueue`):
flush first when the set would exceed `mtu - 36`, push the frame, and
flush at once on Immediate priority. -/
def addFrameToQueue (st : QueueState) (f : Frame) (prio : Priority) : QueueState :=
  let len := 4 + st.frameQueue.foldl (fun a q => a + q.getByteLength) 0
  let st := if len + f.getByteLength > mtu - 36 then sendFrameQueue st else st
  let st := { st with frameQueue := st.frameQueue ++ [f], enqueued := st.enqueued ++ [f] }
  if prio = Priority.immediate then sendFrameQueue st else st

/-- Indexed chunks of a payload: byte offsets 0, `maxFragmentSize`, ... give
fragment positions `j, j+1, ...` with chunks of at most `maxFragmentSize`
bytes.  The fuel argument bounds the recursion by the list length. -/
def chunksFrom (j fuel : Nat) (l : List Nat) : List (Nat × List Nat) :=
  match fuel, l with
  | 0, _ => []
  | _, [] => []
  | fuel + 1, l => (j, l.take maxFragmentSize) :: chunksFrom (j + 1) fuel (l.drop maxFragmentSize)

/-- The fragment loop body of `Queue.sendFrame`: each chunk after the first
takes a fresh reliable index (`frame.reliableIndex = this.outputReliableIndex++`
when `index !== 0`), and every chunk is packed into a fresh frame that copies
reliability, order channel, order index and the current reliable index — but
not the sequence index — then enqueued. -/
def fragLoop (base : Frame) (fid fsize : Nat) (prio : Priority) :
    List (Nat × List Nat) → QueueState → Nat → QueueState
  | [], st, _ => st
  | (i, chunk) :: rest, st, rel =>
    let (st, rel) :=
      if i = 0 then (st, rel)
      else ({ st with reliableCounter := st.reliableCounter + 1 }, st.reliableCounter)
    let ff : Frame :=
      { reliability := base.reliability
        orderChannel := base.orderChannel
        orderIndex := base.orderIndex
        reliableIndex := some rel
        payload := chunk
        fragmentIndex := some i
        fragmentId := some fid
        fragmentSize := some fsize }
    fragLoop base fid fsize prio rest (addFrameToQueue st ff prio) rel

/-- The order / sequence index assignment at the top of `Queue.sendFrame`:
a sequenced frame reuses the channel order index and consumes the next
sequence index; an order-exclusive frame consumes the next order index and
resets the channel sequence index; any other frame is untouched. -/
def assignOrdering (st : QueueState) (f : Frame) : QueueState × Frame :=
  if f.reliability.isSequenced then
    ({ st with seqIdx := updAt st.seqIdx f.orderChannel (st.seqIdx f.orderChannel + 1) },
     { f with orderIndex := some (st.orderIdx f.orderChannel),
              sequenceIndex := some (st.seqIdx f.orderChannel) })
  else if f.reliability.isOrderExclusive then
    ({ st with orderIdx := updAt st.orderIdx f.orderChannel (st.orderIdx f.orderChannel + 1),
               seqIdx := updAt st.seqIdx f.orderChannel 0 },
     { f with orderIndex := some (st.orderIdx f.orderChannel) })
  else (st, f)

/-- The tail of `Queue.sendFrame` after the ordering and reliable-index
assignment: fragment the payload when it exceeds `mtu - 29` bytes (the
fragment id is drawn from the fragment counter, which then advances), or
enqueue the frame directly. -/
def sendFrameAssigned (st : QueueState) (f : Frame) (rel : Nat) (prio : Priority) :
    QueueState :=
  if f.payload.length > maxFragmentSize then
    fragLoop f (st.fragmentCounter % 65536)
      ((f.payload.length + maxFragmentSize - 1) / maxFragmentSize) prio
      (chunksFrom 0 f.payload.length f.payload)
      { st with fragmentCounter := st.fragmentCounter + 1 } rel
  else
    addFrameToQueue st f prio

/-- `Queue.sendFrame`: assign order / sequence indices by reliability mode,
assign the next reliable index unconditionally (advancing the counter),
then either fragment the payload or enqueue the frame directly. -/
def sendFrame (st0 : QueueState) (f0 : Frame) (prio : Priority) : QueueState :=
  sendFrameAssigned
    { (assignOrdering st0 f0).1 with
        reliableCounter := (assignOrdering st0 f0).1.reliableCounter + 1 }
    { (assignOrdering st0 f0).2 with
        reliableIndex := some (assignOrdering st0 f0).1.reliableCounter }
    ((assignOrdering st0 f0).1.reliableCounter)
    prio

/-- ACK branch of `Client.handleMessage`: drop the backup entry of every
acknowledged sequence. -/
def handleAck (st : QueueState) (seqs : List Nat) : QueueState :=
  seqs.foldl (fun st s => { st with backup := eraseMap st.backup s }) st

/-- NACK branch of `Client.handleMessage`: for every listed sequence with a
backup entry, re-enqueue each backed-up frame through `sendFrame` at
Immediate priority. -/
def handleNack (st : QueueState) (seqs : List Nat) : QueueState :=
  seqs.foldl
    (fun st s =>
      match lookupMap st.backup s with
      | some frames => frames.foldl (fun st fr => sendFrame st fr Priority.immediate) st
      | none => st)
    st

/-- Operations driving the outbound queue across a run: frame sends,
inbound ACK and NACK records, and the periodic tick flush. -/
inductive QueueOp where
  | send (f : Frame) (prio : Priority)
  | ack (seqs : List Nat)
  | nack (seqs : List Nat)
  | tickFlush

/-- One queue operation step. -/
def stepQueue (st : QueueState) : QueueOp → QueueState
  | .send f prio => sendFrame st f prio
  | .ack seqs => handleAck st seqs
  | .nack seqs => handleNack st seqs
  | .tickFlush => sendFrameQueue st

/-- A run of the outbound queue from the fresh state. -/
def runQueue (ops : List QueueOp) : QueueState :=
  ops.foldl stepQueue initQueue

/-- Number of fragments `sendFrame` produces for a payload of the given
length: `Math.ceil(byteLength / maxSize)`. -/
def fragmentCount (n : Nat) : Nat :=
  (n + maxFragmentSize - 1) / maxFragmentSize

/-- The frame `sendFrame` builds for fragment `i` (carrying chunk `c`) of a
ReliableOrdered channel-0 payload sent from the fresh queue: shared
fragment id 0, shared fragment size `k`, shared order index 0, its own
reliable index `i`, and no sequence index. -/
def fragFrame (k i : Nat) (c : List Nat) : Frame :=
  { reliability := .reliableOrdered
    orderChannel := 0
    orderIndex := some 0
    reliableIndex := some i
    payload := c
    fragmentIndex := some i
    fragmentId := some 0
    fragmentSize := some k }

/-- The fragment frames of a ReliableOrdered channel-0 payload `p` sent
from the fresh queue. -/
def fragListOf (p : List Nat) : List Frame :=
  (chunksFrom 0 p.length p).map (fun ic => fragFrame (fragmentCount p.length) ic.1 ic.2)

/-! ### Game-batch codec

`Framer.frame` / `Framer.unframe` of the external protocol library are
modelled from the spec: each packet is prefixed with its varint-encoded
length and the results are concatenated.  `deflateRawSync` /
`inflateRawSync` are abstract byte-list transformations passed in as
parameters. -/

/-- LEB128 varint encoding of a natural number (low 7 bits per byte,
continuation bit 0x80 on every byte but the last).  The fuel argument
bounds the recursion; `n` itself is always enough fuel. -/
def varintEncAux : Nat → Nat → List Nat
  | 0, n => [n % 128]
  | fuel + 1, n => if n < 128 then [n] else (n % 128 + 128) :: varintEncAux fuel (n / 128)

/-- LEB128 varint encoding of a natural number. -/
def varintEnc (n : Nat) : List Nat :=
  varintEncAux n n

/-- LEB128 varint decoding: the decoded value and the remaining bytes, or
`none` when the buffer ends inside the varint. -/
def varintDec : List Nat → Option (Nat × List Nat)
  | [] => none
  | b :: rest =>
    if b < 128 then some (b, rest)
    else
      match varintDec rest with
      | some (n, t) => some (b % 128 + 128 * n, t)
      | none => none

/-- Modelled from the spec: `Framer.frame` concatenates each packet payload
behind its varint length prefix. -/
def frameBatch (ps : List (List Nat)) : List Nat :=
  ps.foldr (fun p acc => varintEnc p.length ++ p ++ acc) []

/-- Modelled from the spec: one splitting step of `Framer.unframe`, with a
fuel bound (the data length suffices, as every step consumes at least the
one-byte length prefix). -/
def unframeAux : Nat → List Nat → List (List Nat)
  | 0, _ => []
  | _, [] => []
  | fuel + 1, data =>
    match varintDec data with
    | some (n, rest) => rest.take n :: unframeAux fuel (rest.drop n)
    | none => []

/-- Modelled from the spec: `Framer.unframe` splits a byte string into
length-prefixed packet payloads. -/
def unframeBatch (data : List Nat) : List (List Nat) :=
  unframeAux data.length data

/-- Compression algorithm byte for Zlib (`CompressionMethod.Zlib`). -/
def methodZlib : Nat := 0x00

/-- Compression algorithm byte for Snappy (`CompressionMethod.Snappy`). -/
def methodSnappy : Nat := 0x01

/-- Compression algorithm byte for None (`CompressionMethod.None`). -/
def methodNone : Nat := 0xff

/-- Leading byte of every game payload (`GAME_BYTE`). -/
def gameByte : Nat := 0xfe

/-- `Client.compressPayload`: pass the framed data through unchanged while
compression is not ready; once ready, deflate and tag with the Zlib byte
when the size exceeds the threshold and the negotiated method is Zlib,
otherwise tag with the None byte. -/
def compressPayload (deflate : List Nat → List Nat) (ready : Bool)
    (threshold method : Nat) (framed : List Nat) : List Nat :=
  if !ready then framed
  else if framed.length > threshold ∧ method = methodZlib then
    methodZlib :: deflate framed
  else
    methodNone :: framed

/-- `Client.buildGamePayload`: the compressed batch behind the 0xFE game
byte. -/
def buildGamePayload (deflate : List Nat → List Nat) (ready : Bool)
    (threshold method : Nat) (framed : List Nat) : List Nat :=
  gameByte :: compressPayload deflate ready threshold method framed

/-- `PacketHandler.decodeGamePackets`: the payload after the 0xFE byte is
stripped.  With compression ready, the first byte selects the algorithm —
Zlib inflates, while None, Snappy and any unrecognized byte leave the data
raw; without compression the whole payload is raw.  The result is split by
varint-length framing. -/
def decodeGamePackets (inflate : List Nat → List Nat) (ready : Bool)
    (payload : List Nat) : List (List Nat) :=
  let data :=
    if ready then
      match payload with
      | [] => []
      | b :: rest => if b = methodZlib then inflate rest else rest
    else payload
  unframeBatch data

/-! ### Varint packet-id reader (`PacketHandler.readPacketId`) -/

/-- Loop of `readPacketId`: consume up to five bytes (shift values 0, 7,
14, 21, 28), accumulating the low seven bits of each; stop on a byte
without the 0x80 continuation bit or when the shift budget is exhausted,
and return the accumulator masked to ten bits.  An exhausted buffer gives
-1.  The JavaScript accumulator wraps at 32 bits, which cannot change the
low ten bits kept by the final mask, so the accumulator is a plain `Nat`
here. -/
def readPacketIdAux : List Nat → Nat → Nat → Int
  | [], _, _ => -1
  | b :: rest, acc, shift =>
    let acc := acc ||| ((b &&& 0x7f) <<< shift)
    if b &&& 0x80 = 0 then Int.ofNat (acc &&& 0x3ff)
    else if shift + 7 < 35 then readPacketIdAux rest acc (shift + 7)
    else Int.ofNat (acc &&& 0x3ff)

/-- `PacketHandler.readPacketId` on a byte buffer. -/
def readPacketId (buffer : List Nat) : Int :=
  readPacketIdAux buffer 0 0

/-- Observable effects of `PacketHandler.handleGamePacket`. -/
inductive GamePacketEffect where
  | handlerInvoked (id : Nat)
  | packetEvent (id : Nat)
deriving DecidableEq, Repr

/-- `PacketHandler.handleGamePacket`: empty buffers and buffers whose
packet id reads as -1 are dropped; otherwise the registered handler (if
any) runs and the generic packet event fires.  `registered` abstracts the
handler registry. -/
def handleGamePacket (registered : Nat → Bool) (buffer : List Nat) :
    List GamePacketEffect :=
  if buffer.length < 1 then []
  else
    match readPacketId buffer with
    | Int.negSucc _ => []
    | Int.ofNat pid =>
      (if registered pid then [GamePacketEffect.handlerInvoked pid] else [])
        ++ [GamePacketEffect.packetEvent pid]

/-! ### Session status machine -/

/-- `ClientStatus`: the session phases in their declared order. -/
inductive ClientStatus where
  | disconnected
  | connecting
  | connected
  | loggingIn
  | spawning
  | spawned
deriving DecidableEq, Repr

/-- Numeric value of a phase, matching the TypeScript enum values 0..5. -/
def ClientStatus.rank : ClientStatus → Nat
  | .disconnected => 0
  | .connecting => 1
  | .connected => 2
  | .loggingIn => 3
  | .spawning => 4
  | .spawned => 5

/-- Inbound packets that drive the session status, as dispatched by
`PacketHandler` and `FrameManager`. -/
inductive InboundPacket where
  | playStatus (code : Nat)
  | startGame
  | disconnectPacket
  | connectionRequestAccepted
  | otherPacket
deriving DecidableEq, Repr

/-- Status assignment performed by the inbound handlers: the PlayStatus
handler sets LoggingIn on code 0, Spawned on code 3 and disconnects on
the failure codes 1, 2, 5, 6, 7; the StartGame handler sets Spawning; the
Disconnect path tears down to Disconnected; ConnectionRequestAccepted
raises the raknet connect event, which sets Connected.  None of the
handlers consults the current phase. -/
def stepStatus (s : ClientStatus) : InboundPacket → ClientStatus
  | .playStatus code =>
    if code = 0 then .loggingIn
    else if code = 3 then .spawned
    else if code = 1 ∨ code = 2 ∨ code = 5 ∨ code = 6 ∨ code = 7 then .disconnected
    else s
  | .startGame => .spawning
  | .disconnectPacket => .disconnected
  | .connectionRequestAccepted => .connected
  | .otherPacket => s

/-- The phase each inbound packet assigns, independent of the current
phase (`none` when the packet leaves the phase unchanged). -/
def phaseTarget : InboundPacket → Option ClientStatus
  | .playStatus code =>
    if code = 0 then some .loggingIn
    else if code = 3 then some .spawned
    else if code = 1 ∨ code = 2 ∨ code = 5 ∨ code = 6 ∨ code = 7 then some .disconnected
    else none
  | .startGame => some .spawning
  | .disconnectPacket => some .disconnected
  | .connectionRequestAccepted => some .connected
  | .otherPacket => none

/-! ### User API guards (`Client.chat`, `Client.sendCommand`,
`Client.requireSpawned`) -/

/-- Observable effects of a user API call. -/
inductive ApiEffect where
  | warnNotSpawned
  | queuedPacket (packetId : Nat)
deriving DecidableEq, Repr

/-- `Client.requireSpawned`: log a warning when the session is not in the
Spawned phase.  The method returns normally in either case. -/
def requireSpawned (status : ClientStatus) : List ApiEffect :=
  if status ≠ ClientStatus.spawned then [ApiEffect.warnNotSpawned] else []

/-- `Client.chat`: call `requireSpawned`, then unconditionally build a Text
packet (id 9) and hand it to `sendPacket`, which queues it. -/
def chatEffects (status : ClientStatus) : List ApiEffect :=
  requireSpawned status ++ [ApiEffect.queuedPacket 9]

/-- `Client.sendCommand`: call `requireSpawned`, then unconditionally build
a CommandRequest packet (id 77) and hand it to `sendPacket`. -/
def sendCommandEffects (status : ClientStatus) : List ApiEffect :=
  requireSpawned status ++ [ApiEffect.queuedPacket 77]

/-! ### World mirror (`PlayerState`) -/

/-- An attribute value as stored by `PlayerState` (current, default, min,
max).  The numeric fields are rationals: the source performs no arithmetic
on them, so the literal values carry over exactly. -/
structure AttributeValue where
  current : ℚ
  defaultValue : ℚ
  min : ℚ
  max : ℚ
deriving DecidableEq, Repr

/-- A named attribute as delivered by the UpdateAttributes handler. -/
structure AttributeInput where
  name : String
  current : ℚ
  defaultValue : ℚ
  min : ℚ
  max : ℚ
deriving DecidableEq, Repr

/-- The attribute map of `PlayerState`, keyed by attribute name. -/
def AttrMap : Type := String → Option AttributeValue

/-- The empty attribute map (fresh `PlayerState`). -/
def emptyAttrMap : AttrMap := fun _ => none

/-- One `Map.set` step of `PlayerState.updateAttributes`. -/
def setAttr (m : AttrMap) (a : AttributeInput) : AttrMap :=
  fun n =>
    if n = a.name then
      some { current := a.current, defaultValue := a.defaultValue,
             min := a.min, max := a.max }
    else m n

/-- `PlayerState.updateAttributes`: store every listed attribute under its
name, in list order (a later duplicate overwrites an earlier one). -/
def updateAttributes (attrs : List AttributeInput) (m : AttrMap) : AttrMap :=
  attrs.foldl setAttr m

/-- `PlayerState.health`: current value of `minecraft:health`, default 20. -/
def healthOf (m : AttrMap) : ℚ :=
  ((m "minecraft:health").map (·.current)).getD 20

/-- `PlayerState.maxHealth`: max value of `minecraft:health`, default 20. -/
def maxHealthOf (m : AttrMap) : ℚ :=
  ((m "minecraft:health").map (·.max)).getD 20

/-- `PlayerState.movementSpeed`: current value of `minecraft:movement`,
default 0.1. -/
def movementSpeedOf (m : AttrMap) : ℚ :=
  ((m "minecraft:movement").map (·.current)).getD (1 / 10)

/-- A sequence of `updateAttributes` calls applied to a fresh
`PlayerState`. -/
def runUpdates (lists : List (List AttributeInput)) : AttrMap :=
  lists.foldl (fun m l => updateAttributes l m) emptyAttrMap

/-! ### Inbound ordering (`FrameManager.handleOrderedFrame`) -/

/-- Per-channel ordering state of the inbound reassembler, plus a ghost log
of the frames handed to `processFrame` (the upper batch layer), in order. -/
structure OrdState where
  inputOrderIndex : Nat → Nat := fun _ => 0
  inputOrderingQueue : Nat → List (Nat × Frame) := fun _ => []
  delivered : List Frame := []

/-- The initial ordering state (fresh `FrameManager`). -/
def initOrd : OrdState := {}

/-- Pointwise update of the per-channel ordering queues. -/
def updQ (g : Nat → List (Nat × Frame)) (k : Nat) (v : List (Nat × Frame)) :
    Nat → List (Nat × Frame) :=
  fun i => if i = k then v else g i

/-- The drain loop of `handleOrderedFrame`: starting at the next expected
index, process and delete contiguous queued frames until one is missing.
The fuel argument bounds the recursion; the queue length suffices, as each
step deletes one queued entry. -/
def drainLoop : Nat → Nat → List (Nat × Frame) → List Frame →
    Nat × List (Nat × Frame) × List Frame
  | 0, idx, q, acc => (idx, q, acc)
  | fuel + 1, idx, q, acc =>
    match lookupMap q idx with
    | some f => drainLoop fuel (idx + 1) (eraseMap q idx) (acc ++ [f])
    | none => (idx, q, acc)

/-- `FrameManager.handleOrderedFrame`: a frame at the expected order index
is processed, the expectation advances, and contiguous parked frames are
drained; a frame beyond the expectation is parked in the ordering queue; a
frame below it is dropped.  A frame with an unassigned order index
satisfies neither JavaScript comparison and is dropped. -/
def handleOrderedFrame (st : OrdState) (f : Frame) : OrdState :=
  let ch := f.orderChannel
  let cur := st.inputOrderIndex ch
  match f.orderIndex with
  | some oi =>
    if oi = cur then
      let q := st.inputOrderingQueue ch
      let (idx, q, drained) := drainLoop q.length (cur + 1) q []
      { inputOrderIndex := updAt st.inputOrderIndex ch idx
        inputOrderingQueue := updQ st.inputOrderingQueue ch q
        delivered := st.delivered ++ [f] ++ drained }
    else if oi > cur then
      { st with
        inputOrderingQueue :=
          updQ st.inputOrderingQueue ch (insertMap (st.inputOrderingQueue ch) oi f) }
    else st
  | none => st

/-- Fold of `handleOrderedFrame` over a list of inbound ordered frames. -/
def runOrdered (frames : List Frame) : OrdState :=
  frames.foldl handleOrderedFrame initOrd

/-- Order indices delivered so far on one channel, in delivery order. -/
def deliveredOn (st : OrdState) (ch : Nat) : List (Option Nat) :=
  (st.delivered.filter (fun f => f.orderChannel = ch)).map (·.orderIndex)

/-! ### Fragment reassembly (`FrameManager.handleFragment`) -/

/-- The fragment store (`fragmentsQueue`): fragment id to a map from
fragment index to frame. -/
def FragMap : Type := List (Nat × List (Nat × Frame))

/-- `FrameManager.handleFragment`: park the fragment under its id and
index; once the per-id map holds `fragmentSize` entries, concatenate the
payloads in index order into a reassembled frame that inherits the
reliability metadata of the completing fragment (the source hands that
frame back to `handleFrame`), and drop the id from the store. -/
def handleFragment (fm : FragMap) (f : Frame) : FragMap × Option Frame :=
  let fid := f.fragmentId.getD 0
  let q := (lookupMap fm fid).getD []
  let q := insertMap q (f.fragmentIndex.getD 0) f
  if q.length = f.fragmentSize.getD 0 then
    let payload :=
      ((List.range q.length).map
        (fun i => ((lookupMap q i).map (·.payload)).getD [])).flatten
    let re : Frame :=
      { reliability := f.reliability
        orderChannel := f.orderChannel
        orderIndex := f.orderIndex
        sequenceIndex := f.sequenceIndex
        reliableIndex := f.reliableIndex
        payload := payload }
    (eraseMap fm fid, some re)
  else
    (insertMap fm fid q, none)

/-- The map key `handleFragment` uses for a fragment: its fragment index
(0 for an unset field, as JavaScript uses the raw value). -/
def fragKey (f : Frame) : Nat :=
  f.fragmentIndex.getD 0

/-- The store entry `handleFragment` creates for a fragment. -/
def fragEntry (f : Frame) : Nat × Frame :=
  (fragKey f, f)

/-- The fragment frame built inside the fragment loop of `sendFrame`:
reliability, order channel and order index copied from the (index-assigned)
base frame, its own reliable index, the shared fragment id and size, and no
sequence index. -/
def mkFragment (base : Frame) (fid fsize i : Nat) (c : List Nat) (r : Nat) : Frame :=
  { reliability := base.reliability
    orderChannel := base.orderChannel
    orderIndex := base.orderIndex
    reliableIndex := some r
    payload := c
    fragmentIndex := some i
    fragmentId := some fid
    fragmentSize := some fsize }

/-- One arrival step of the reassembler: feed the fragment to
`handleFragment` and collect any reassembled frame it emits. -/
def fragStep (acc : FragMap × List Frame) (f : Frame) : FragMap × List Frame :=
  let r := handleFragment acc.1 f
  (r.1, acc.2 ++ r.2.toList)

/-- Fold of `handleFragment` over a list of arriving fragments, collecting
the reassembled frames it emits. -/
def processFragList (l : List Frame) : FragMap × List Frame :=
  l.foldl fragStep ([], [])

/-! ## Theorems -/

/-- C1: the NACK branch does retrieve `backup[s]` and re-enqueue every
backed-up frame at Immediate priority, but the re-enqueue goes through
`sendFrame`, which assigns a fresh reliableIndex unconditionally and a
fresh orderIndex to order-exclusive frames.  At the failing input — a
ReliableOrdered frame sent from the fresh queue (backed up under sequence
0 with reliableIndex 0 and orderIndex 0) followed by a NACK for sequence 0
— the retransmitted copy is flushed immediately as frame set 1 but carries
reliableIndex 1 and orderIndex 1, so the claimed index preservation fails
while the re-enqueue-at-Immediate part holds. -/
theorem C1_nack_retransmission_reassigns_indices :
    ((lookupMap (sendFrame initQueue
        { reliability := .reliableOrdered, orderChannel := 0, payload := [1, 2, 3] }
        .immediate).backup 0).map
          (fun l => l.map fun fr => (fr.reliableIndex, fr.orderIndex))
        = some [(some 0, some 0)])
      ∧ ((handleNack (sendFrame initQueue
            { reliability := .reliableOrdered, orderChannel := 0, payload := [1, 2, 3] }
            .immediate) [0]).sent.map
              (fun s => (s.1, s.2.map fun fr => (fr.reliableIndex, fr.orderIndex)))
          = [(0, [(some 0, some 0)]), (1, [(some 1, some 1)])])
      ∧ (some 1 : Option Nat) ≠ some 0 := by
  decide

/-- C3: calling `chat` or `sendCommand` outside the Spawned phase logs the
not-spawned warning but does not abort: `requireSpawned` returns normally,
so the Text packet (id 9) and the CommandRequest packet (id 77) are still
handed to the outbound queue, contrary to the claim that the call is
ignored.  In the Spawned phase no warning is produced. -/
theorem C3_chat_and_command_queued_despite_warning :
    chatEffects .connecting = [ApiEffect.warnNotSpawned, ApiEffect.queuedPacket 9]
      ∧ sendCommandEffects .connecting
          = [ApiEffect.warnNotSpawned, ApiEffect.queuedPacket 77]
      ∧ ApiEffect.queuedPacket 9 ∈ chatEffects .connecting
      ∧ chatEffects .spawned = [ApiEffect.queuedPacket 9] := by
  decide

/-- C2 counterexample: sending a single Unreliable frame from the fresh
queue increments the reliable-index counter from 0 to 1, so the counter is
not reserved to reliable frames as the claim states (the increment in
`sendFrame` is unconditional). -/
theorem C2_counterexample :
    Reliability.isReliable .unreliable = false
      ∧ (sendFrame initQueue
          { reliability := .unreliable, orderChannel := 0, payload := [7] }
          .normal).reliableCounter = 1
      ∧ initQueue.reliableCounter = 0 := by
  decide

/-- C4 counterexample: the PlayStatus handler assigns LoggingIn on code 0
without consulting the current phase, so a (duplicate or late) LoginSuccess
received while Spawned moves the phase from rank 5 down to rank 3 — a
strict decrease into a phase other than Disconnected. -/
theorem C4_counterexample :
    stepStatus .spawned (.playStatus 0) = .loggingIn
      ∧ ClientStatus.rank (stepStatus .spawned (.playStatus 0))
          < ClientStatus.rank .spawned
      ∧ stepStatus .spawned (.playStatus 0) ≠ .disconnected := by
  decide

/-- C4 (amended): every inbound-packet transition sets the phase to a
target determined by the packet alone (or leaves it unchanged when the
packet carries no target); consequently the phase advances monotonically
along any step whose current phase does not exceed the target of the
arriving packet.  Unconditional assignment means a late login-sequence
packet can still move the phase backward, as the counterexample shows. -/
theorem C4_phase_assignment_and_conditional_monotonicity :
    (∀ s p, stepStatus s p = (phaseTarget p).getD s)
      ∧ (∀ s p t, phaseTarget p = some t → ClientStatus.rank s ≤ ClientStatus.rank t →
          ClientStatus.rank s ≤ ClientStatus.rank (stepStatus s p)) := by
  have h : ∀ s p, stepStatus s p = (phaseTarget p).getD s := by
    intro s p
    cases p with
    | playStatus code =>
        simp only [stepStatus, phaseTarget]
        split_ifs <;> rfl
    | startGame => rfl
    | disconnectPacket => rfl
    | connectionRequestAccepted => rfl
    | otherPacket => rfl
  refine ⟨h, fun s p t hpt hle => ?_⟩
  rw [h s p, hpt]
  exact hle

/-- Witness for the amended C4 theorem at a concrete transition. -/
theorem C4_phase_witness :
    ClientStatus.rank .connecting
      ≤ ClientStatus.rank (stepStatus .connecting (.playStatus 0)) :=
  C4_phase_assignment_and_conditional_monotonicity.2 .connecting (.playStatus 0)
    .loggingIn (by decide) (by decide)

/-- C5: every outbound game batch starts with the 0xFE game byte; before
compression is enabled the framed data follows the game byte directly;
once enabled, a framed payload above the threshold under the Zlib method
is emitted as 0xFE, the Zlib byte 0x00 and the raw-deflate of the framed
data, while a framed payload at or below the threshold is emitted as 0xFE,
the None byte 0xFF and the framed data uncompressed. -/
theorem C5_game_payload_layout (deflate : List Nat → List Nat) (ready : Bool)
    (threshold method : Nat) (framed : List Nat) :
    (buildGamePayload deflate ready threshold method framed).head? = some gameByte
      ∧ buildGamePayload deflate false threshold method framed = gameByte :: framed
      ∧ (framed.length > threshold → method = methodZlib →
          buildGamePayload deflate true threshold method framed
            = gameByte :: methodZlib :: deflate framed)
      ∧ (framed.length ≤ threshold →
          buildGamePayload deflate true threshold method framed
            = gameByte :: methodNone :: framed) := by
  refine ⟨rfl, rfl, ?_, ?_⟩
  · intro hgt hm
    simp only [buildGamePayload, compressPayload, Bool.not_true, Bool.false_eq_true,
      if_false]
    rw [if_pos ⟨hgt, hm⟩]
  · intro hle
    simp only [buildGamePayload, compressPayload, Bool.not_true, Bool.false_eq_true,
      if_false]
    rw [if_neg (fun hc => absurd hc.1 (Nat.not_lt.mpr hle))]

/-- Witness for C5 at concrete inputs on both sides of the threshold. -/
theorem C5_witness :
    buildGamePayload id true 1 methodZlib [9, 9, 9]
        = gameByte :: methodZlib :: id [9, 9, 9]
      ∧ buildGamePayload id true 99 methodZlib [9, 9, 9]
        = gameByte :: methodNone :: [9, 9, 9] :=
  ⟨(C5_game_payload_layout id true 1 methodZlib [9, 9, 9]).2.2.1 (by decide) rfl,
   (C5_game_payload_layout id true 99 methodZlib [9, 9, 9]).2.2.2 (by decide)⟩

/-- C10 counterexample: a buffer of five continuation bytes exhausts the
shift budget of `readPacketId`, which then returns the masked accumulator
0 rather than -1, even though every byte up to the end of the buffer has
the 0x80 continuation bit set (the claimed truncation condition). -/
theorem C10_counterexample :
    readPacketId [0x80, 0x80, 0x80, 0x80, 0x80] = 0
      ∧ (∀ b ∈ [0x80, 0x80, 0x80, 0x80, 0x80], b &&& 0x80 ≠ 0)
      ∧ ((0 : Int) = -1 → False) := by
  decide

/-- Every value `readPacketIdAux` returns is -1 or a ten-bit mask. -/
theorem readPacketIdAux_cases (buffer : List Nat) :
    ∀ acc shift, readPacketIdAux buffer acc shift = -1
      ∨ ∃ n : Nat, readPacketIdAux buffer acc shift = Int.ofNat (n &&& 0x3ff) := by
  induction buffer with
  | nil => intro acc shift; left; rfl
  | cons b rest ih =>
      intro acc shift
      simp only [readPacketIdAux]
      split_ifs with h1 h2
      · right; exact ⟨_, rfl⟩
      · exact ih _ _
      · right; exact ⟨_, rfl⟩

/-- The -1 return of `readPacketIdAux` from shift `s` (a multiple of 7 of
at most 28) happens exactly when the buffer holds fewer bytes than the
remaining shift budget allows and every byte carries the continuation
bit. -/
theorem readPacketIdAux_neg_iff (buffer : List Nat) :
    ∀ acc shift, shift % 7 = 0 → shift ≤ 28 →
      (readPacketIdAux buffer acc shift = -1
        ↔ buffer.length < 5 - shift / 7 ∧ ∀ b ∈ buffer, b &&& 0x80 ≠ 0) := by
  induction buffer with
  | nil =>
      intro acc shift h7 h28
      simp only [readPacketIdAux, List.length_nil, List.not_mem_nil]
      constructor
      · intro _
        exact ⟨by omega, fun b hb => absurd hb (by simp)⟩
      · intro _; trivial
  | cons b rest ih =>
      intro acc shift h7 h28
      simp only [readPacketIdAux]
      by_cases h1 : b &&& 0x80 = 0
      · rw [if_pos h1]
        constructor
        · intro hc
          simp only [Int.ofNat_eq_natCast] at hc
          omega
        · rintro ⟨-, hall⟩
          exact absurd h1 (hall b (List.mem_cons_self b rest))
      · rw [if_neg h1]
        by_cases h2 : shift + 7 < 35
        · rw [if_pos h2]
          rw [ih _ (shift + 7) (by omega) (by omega)]
          simp only [List.length_cons, List.mem_cons]
          constructor
          · rintro ⟨hlen, hall⟩
            refine ⟨by omega, ?_⟩
            rintro x (rfl | hx)
            · exact h1
            · exact hall x hx
          · rintro ⟨hlen, hall⟩
            exact ⟨by omega, fun x hx => hall x (Or.inr hx)⟩
        · rw [if_neg h2]
          constructor
          · intro hc
            simp only [Int.ofNat_eq_natCast] at hc
            omega
          · rintro ⟨hlen, -⟩
            simp only [List.length_cons] at hlen
            omega

/-- The -1 return of `readPacketId` happens exactly on buffers of fewer
than five bytes all carrying the continuation bit. -/
theorem readPacketId_neg_one_iff (buffer : List Nat) :
    readPacketId buffer = -1
      ↔ buffer.length < 5 ∧ ∀ b ∈ buffer, b &&& 0x80 ≠ 0 := by
  have h := readPacketIdAux_neg_iff buffer 0 0 (by omega) (by omega)
  simpa using h

/-- C10 (amended): `readPacketId` always terminates with -1 or a value in
the range 0..1023; it returns -1 exactly when the buffer holds fewer than
five bytes, every one carrying the 0x80 continuation bit (a buffer of five
or more continuation bytes instead exhausts the shift budget and returns
the masked accumulator, as the counterexample records); and whenever it
returns -1, `handleGamePacket` invokes no registered handler and emits no
packet event. -/
theorem C10_readPacketId_range_and_guard (registered : Nat → Bool)
    (buffer : List Nat) :
    (readPacketId buffer = -1
        ↔ buffer.length < 5 ∧ ∀ b ∈ buffer, b &&& 0x80 ≠ 0)
      ∧ (readPacketId buffer = -1
          ∨ ∃ n : Nat, readPacketId buffer = Int.ofNat n ∧ n ≤ 1023)
      ∧ (readPacketId buffer = -1 → handleGamePacket registered buffer = []) := by
  refine ⟨readPacketId_neg_one_iff buffer, ?_, ?_⟩
  · rcases readPacketIdAux_cases buffer 0 0 with h | ⟨n, h⟩
    · exact Or.inl h
    · exact Or.inr ⟨n &&& 0x3ff, h, Nat.and_le_right⟩
  · intro h
    unfold handleGamePacket
    split_ifs with hlen
    · rfl
    · rw [h]; rfl

/-- Witness for the amended C10 theorem: a single continuation byte reads
as -1 and is dropped by `handleGamePacket`. -/
theorem C10_witness :
    readPacketId [0x80] = -1 ∧ handleGamePacket (fun _ => false) [0x80] = [] := by
  have h := C10_readPacketId_range_and_guard (fun _ => false) [0x80]
  have h1 : readPacketId [0x80] = -1 := h.1.mpr (by decide)
  exact ⟨h1, h.2.2 h1⟩

/-- An attribute name absent from the update list is left untouched by
`updateAttributes`. -/
theorem updateAttributes_not_mem (attrs : List AttributeInput) :
    ∀ (m : AttrMap) (name : String),
      name ∉ attrs.map (·.name) → updateAttributes attrs m name = m name := by
  induction attrs with
  | nil => intro m name _; rfl
  | cons a attrs ih =>
      intro m name hname
      simp only [List.map_cons, List.mem_cons, not_or] at hname
      show updateAttributes attrs (setAttr m a) name = m name
      rw [ih (setAttr m a) name hname.2]
      simp only [setAttr]
      rw [if_neg hname.1]

/-- An attribute name present in the update list ends up replaced with an
entry from the list. -/
theorem updateAttributes_mem (attrs : List AttributeInput) :
    ∀ (m : AttrMap) (name : String),
      name ∈ attrs.map (·.name) →
        ∃ a ∈ attrs, a.name = name ∧ updateAttributes attrs m name
          = some { current := a.current, defaultValue := a.defaultValue,
                   min := a.min, max := a.max } := by
  induction attrs with
  | nil => intro m name h; exact absurd h (by simp)
  | cons a attrs ih =>
      intro m name hname
      by_cases hmem : name ∈ attrs.map (·.name)
      · obtain ⟨b, hb, hbn, hval⟩ := ih (setAttr m a) name hmem
        exact ⟨b, List.mem_cons_of_mem a hb, hbn, hval⟩
      · have hna : name = a.name := by
          simp only [List.map_cons, List.mem_cons] at hname
          exact hname.resolve_right hmem
        refine ⟨a, List.mem_cons_self a attrs, hna.symm, ?_⟩
        show updateAttributes attrs (setAttr m a) name = _
        rw [updateAttributes_not_mem attrs (setAttr m a) name hmem]
        simp only [setAttr]
        rw [if_pos hna]

/-- A name never mentioned across a run of updates is still unset. -/
theorem runUpdates_not_mem (lists : List (List AttributeInput)) (name : String)
    (h : ∀ l ∈ lists, ∀ a ∈ l, a.name ≠ name) :
    runUpdates lists name = none := by
  unfold runUpdates
  suffices hgen : ∀ (m : AttrMap), m name = none →
      (lists.foldl (fun m l => updateAttributes l m) m) name = none by
    exact hgen emptyAttrMap rfl
  induction lists with
  | nil => intro m hm; exact hm
  | cons l lists ih =>
      intro m hm
      simp only [List.foldl_cons]
      refine ih (fun l' hl' => h l' (List.mem_cons_of_mem l hl')) _ ?_
      rw [updateAttributes_not_mem l m name ?_]
      · exact hm
      · intro hmem
        obtain ⟨a, ha, han⟩ := List.mem_map.mp hmem
        exact h l (List.mem_cons_self l lists) a ha han

/-- C9: `updateAttributes` replaces exactly the stored attributes whose
names appear in the list (with values drawn from the list) and leaves
every other stored attribute unchanged; after any sequence of updates that
never mentions an attribute, the accessors return the sentinel defaults —
health 20, maxHealth 20, movement speed 0.1. -/
theorem C9_update_attributes_replace_and_defaults :
    (∀ (m : AttrMap) (attrs : List AttributeInput) (name : String),
        name ∉ attrs.map (·.name) → updateAttributes attrs m name = m name)
      ∧ (∀ (m : AttrMap) (attrs : List AttributeInput) (name : String),
          name ∈ attrs.map (·.name) →
            ∃ a ∈ attrs, a.name = name ∧ updateAttributes attrs m name
              = some { current := a.current, defaultValue := a.defaultValue,
                       min := a.min, max := a.max })
      ∧ (∀ lists, (∀ l ∈ lists, ∀ a ∈ l, a.name ≠ "minecraft:health") →
          healthOf (runUpdates lists) = 20 ∧ maxHealthOf (runUpdates lists) = 20)
      ∧ (∀ lists, (∀ l ∈ lists, ∀ a ∈ l, a.name ≠ "minecraft:movement") →
          movementSpeedOf (runUpdates lists) = 1 / 10) := by
  refine ⟨fun m attrs name => updateAttributes_not_mem attrs m name,
          fun m attrs name => updateAttributes_mem attrs m name, ?_, ?_⟩
  · intro lists h
    have hnone := runUpdates_not_mem lists "minecraft:health" h
    constructor
    · unfold healthOf; rw [hnone]; rfl
    · unfold maxHealthOf; rw [hnone]; rfl
  · intro lists h
    have hnone := runUpdates_not_mem lists "minecraft:movement" h
    unfold movementSpeedOf; rw [hnone]; rfl

/-- The reliable-index invariant of the outbound queue: the ghost log
carries reliable indices 0, 1, ..., counter-1 in enqueue order, one
counter increment per enqueued frame. -/
def relInv (st : QueueState) : Prop :=
  st.reliableCounter = st.enqueued.length
    ∧ st.enqueued.map (·.reliableIndex)
      = (List.range st.reliableCounter).map some

/-- Flushing the frame set touches neither the ghost log nor the
reliable counter. -/
theorem sendFrameQueue_ghost (st : QueueState) :
    (sendFrameQueue st).enqueued = st.enqueued
      ∧ (sendFrameQueue st).reliableCounter = st.reliableCounter := by
  unfold sendFrameQueue
  split_ifs <;> exact ⟨rfl, rfl⟩

/-- Enqueueing appends exactly one frame to the ghost log and leaves the
reliable counter alone. -/
theorem addFrameToQueue_ghost (st : QueueState) (f : Frame) (prio : Priority) :
    (addFrameToQueue st f prio).enqueued = st.enqueued ++ [f]
      ∧ (addFrameToQueue st f prio).reliableCounter = st.reliableCounter := by
  unfold addFrameToQueue
  by_cases h1 :
      4 + st.frameQueue.foldl (fun a q => a + q.getByteLength) 0 + f.getByteLength
        > mtu - 36 <;>
    by_cases h2 : prio = Priority.immediate <;>
    simp only [h1, h2, if_true, if_false, ite_true, ite_false] <;>
    constructor <;>
    simp [(sendFrameQueue_ghost _).1, (sendFrameQueue_ghost _).2]

/-- Enqueueing the frame that carries the current pending reliable index
restores the invariant. -/
theorem relInv_enqueue (st : QueueState) (f : Frame) (prio : Priority)
    (hc : st.reliableCounter = st.enqueued.length + 1)
    (hm : st.enqueued.map (·.reliableIndex)
      = (List.range st.enqueued.length).map some)
    (hf : f.reliableIndex = some st.enqueued.length) :
    relInv (addFrameToQueue st f prio) := by
  obtain ⟨he, hcnt⟩ := addFrameToQueue_ghost st f prio
  constructor
  · rw [hcnt, he, hc]
    simp
  · rw [he, hcnt, hc, List.range_succ]
    simp [hm, hf]

/-- Every chunk position produced by `chunksFrom j` is at least `j`. -/
theorem chunksFrom_pos (fuel : Nat) :
    ∀ (j : Nat) (l : List Nat), ∀ p ∈ chunksFrom j fuel l, j ≤ p.1 := by
  induction fuel with
  | zero => intro j l p hp; simp [chunksFrom] at hp
  | succ fuel ih =>
      intro j l p hp
      cases l with
      | nil => simp [chunksFrom] at hp
      | cons a l =>
          simp only [chunksFrom] at hp
          rcases List.mem_cons.mp hp with rfl | hp
          · exact Nat.le_refl j
          · exact Nat.le_of_succ_le (ih (j + 1) _ p hp)

/-- The fragment loop preserves the reliable-index invariant over chunks
at nonzero positions (each takes a fresh counter value and is enqueued
with it). -/
theorem fragLoop_inv (base : Frame) (fid fsize : Nat) (prio : Priority) :
    ∀ (cl : List (Nat × List Nat)) (st : QueueState) (rel : Nat),
      (∀ p ∈ cl, p.1 ≠ 0) → relInv st →
        relInv (fragLoop base fid fsize prio cl st rel) := by
  intro cl
  induction cl with
  | nil => intro st rel _ h; exact h
  | cons p cl ih =>
      obtain ⟨i, chunk⟩ := p
      intro st rel hpos hinv
      have hi : i ≠ 0 := hpos (i, chunk) (List.mem_cons_self _ _)
      rw [fragLoop, if_neg hi]
      refine ih _ _ (fun q hq => hpos q (List.mem_cons_of_mem _ hq)) ?_
      exact relInv_enqueue _ _ _ (by simp [hinv.1])
        (by simpa [hinv.1] using hinv.2) (by simp [hinv.1])

/-- `sendFrameAssigned` restores the reliable-index invariant when handed
a frame carrying the pre-bump counter value: either it enqueues that frame
directly, or fragment 0 reuses the pending value and every later fragment
takes a fresh one. -/
theorem sendFrameAssigned_inv (st : QueueState) (f : Frame) (prio : Priority)
    (hc : st.reliableCounter = st.enqueued.length + 1)
    (hm : st.enqueued.map (·.reliableIndex)
      = (List.range st.enqueued.length).map some)
    (hf : f.reliableIndex = some st.enqueued.length) :
    relInv (sendFrameAssigned st f st.enqueued.length prio) := by
  unfold sendFrameAssigned
  split_ifs with hfrag
  · rcases hp : f.payload with _ | ⟨b, rest⟩
    · rw [hp] at hfrag; simp [maxFragmentSize, mtu] at hfrag
    · have hlen : (b :: rest).length = rest.length + 1 := rfl
      rw [hlen, chunksFrom, fragLoop, if_pos rfl]
      · refine fragLoop_inv _ _ _ _ _ _ _
          (fun q hq => Nat.one_le_iff_ne_zero.mp (chunksFrom_pos _ _ _ q hq)) ?_
        exact relInv_enqueue _ _ _ (by simpa using hc)
          (by simp only []; exact hm) rfl
      · simp
  · exact relInv_enqueue _ _ _ hc hm hf

/-- `sendFrame` preserves the reliable-index invariant: the counter is
bumped exactly once per enqueued frame or fragment, and each frame carries
the pre-bump value. -/
theorem sendFrame_inv (st : QueueState) (f : Frame) (prio : Priority)
    (h : relInv st) : relInv (sendFrame st f prio) := by
  have ha1 : (assignOrdering st f).1.reliableCounter = st.reliableCounter := by
    unfold assignOrdering; split_ifs <;> rfl
  have ha2 : (assignOrdering st f).1.enqueued = st.enqueued := by
    unfold assignOrdering; split_ifs <;> rfl
  unfold sendFrame
  have hrel : (assignOrdering st f).1.reliableCounter
      = ({ (assignOrdering st f).1 with
            reliableCounter := (assignOrdering st f).1.reliableCounter + 1 }
          : QueueState).enqueued.length := by
    simp [ha1, ha2, h.1]
  rw [hrel]
  exact sendFrameAssigned_inv _ _ prio (by simp [ha1, ha2, h.1])
    (by simpa [ha2, h.1, ha1] using h.2) (by simp [ha1, ha2, h.1])

/-- Re-enqueueing a list of frames preserves the reliable-index
invariant. -/
theorem foldl_sendFrame_inv (frames : List Frame) :
    ∀ st : QueueState, relInv st →
      relInv (frames.foldl (fun st fr => sendFrame st fr Priority.immediate) st) := by
  induction frames with
  | nil => intro st h; exact h
  | cons fr frames ih =>
      intro st h
      exact ih _ (sendFrame_inv st fr Priority.immediate h)

/-- The NACK handler preserves the reliable-index invariant. -/
theorem handleNack_inv (seqs : List Nat) :
    ∀ st : QueueState, relInv st → relInv (handleNack st seqs) := by
  induction seqs with
  | nil => intro st h; exact h
  | cons s seqs ih =>
      intro st h
      unfold handleNack
      simp only [List.foldl_cons]
      show relInv (handleNack _ seqs)
      cases hb : lookupMap st.backup s with
      | none => simp only [hb]; exact ih _ h
      | some frames => simp only [hb]; exact ih _ (foldl_sendFrame_inv frames st h)

/-- The ACK handler preserves the reliable-index invariant (it only prunes
the backup map). -/
theorem handleAck_inv (seqs : List Nat) :
    ∀ st : QueueState, relInv st → relInv (handleAck st seqs) := by
  induction seqs with
  | nil => intro st h; exact h
  | cons s seqs ih =>
      intro st h
      unfold handleAck
      simp only [List.foldl_cons]
      show relInv (handleAck _ seqs)
      exact ih _ ⟨h.1, h.2⟩

/-- Every queue operation preserves the reliable-index invariant. -/
theorem stepQueue_inv (st : QueueState) (op : QueueOp) (h : relInv st) :
    relInv (stepQueue st op) := by
  cases op with
  | send f prio => exact sendFrame_inv st f prio h
  | ack seqs => exact handleAck_inv seqs st h
  | nack seqs => exact handleNack_inv seqs st h
  | tickFlush =>
      have hg := sendFrameQueue_ghost st
      constructor
      · show (sendFrameQueue st).reliableCounter = (sendFrameQueue st).enqueued.length
        rw [hg.1, hg.2]; exact h.1
      · show (sendFrameQueue st).enqueued.map (·.reliableIndex)
          = (List.range (sendFrameQueue st).reliableCounter).map some
        rw [hg.1, hg.2]; exact h.2

/-- C2 (amended): across any run of the outbound queue, the reliable-index
counter is incremented exactly once per enqueued frame (and once per
fragment of a fragmented payload) regardless of reliability mode — the
increment in `sendFrame` is unconditional, so non-reliable frames consume
indices too, as the counterexample records — and the reliableIndex values
assigned to the enqueued frames form the strictly increasing gap-free
sequence 0, 1, 2, ... in enqueue order. -/
theorem C2_reliable_indices_consecutive (ops : List QueueOp) :
    (runQueue ops).reliableCounter = (runQueue ops).enqueued.length
      ∧ (runQueue ops).enqueued.map (·.reliableIndex)
        = (List.range (runQueue ops).reliableCounter).map some := by
  unfold runQueue
  suffices hgen : ∀ st : QueueState, relInv st →
      relInv (ops.foldl stepQueue st) from hgen initQueue ⟨rfl, rfl⟩
  induction ops with
  | nil => intro st h; exact h
  | cons op ops ih =>
      intro st h
      exact ih _ (stepQueue_inv st op h)

/-- A successful association-list lookup is a membership. -/
theorem lookupMap_mem {α : Type} (q : List (Nat × α)) (k : Nat) (v : α)
    (h : lookupMap q k = some v) : (k, v) ∈ q := by
  unfold lookupMap at h
  cases hf : q.find? (fun p => p.1 = k) with
  | none => rw [hf] at h; cases h
  | some pr =>
      rw [hf] at h
      simp only [Option.map_some', Option.some.injEq] at h
      have hmem := List.mem_of_find?_eq_some hf
      have hb := List.find?_some hf
      have hkey : pr.1 = k := by simpa using hb
      have hp : pr = (k, v) := Prod.ext hkey h
      rw [hp] at hmem
      exact hmem

/-- Erasing keeps only entries of the original list. -/
theorem eraseMap_subset {α : Type} (q : List (Nat × α)) (k : Nat) (p : Nat × α)
    (h : p ∈ eraseMap q k) : p ∈ q :=
  List.mem_of_mem_filter h

/-- Entries of an insert are the new entry or entries of the original. -/
theorem insertMap_mem {α : Type} (q : List (Nat × α)) (k : Nat) (v : α)
    (p : Nat × α) (h : p ∈ insertMap q k v) : p = (k, v) ∨ p ∈ q := by
  unfold insertMap at h
  rcases List.mem_append.mp h with h | h
  · exact Or.inr (eraseMap_subset q k p h)
  · exact Or.inl (List.mem_singleton.mp h)

/-- An initial range, its endpoint and a contiguous run extend to a longer
initial range. -/
theorem range_extend (c m : Nat) :
    List.range c ++ [c] ++ List.range' (c + 1) m = List.range (c + 1 + m) := by
  rw [← List.range_succ, List.range_eq_range', List.range_eq_range']
  have h := List.range'_append 0 (c + 1) m 1
  simp only [Nat.mul_one, Nat.zero_add, Nat.one_mul] at h
  rw [h, Nat.add_comm m (c + 1)]

/-- What the drain loop of `handleOrderedFrame` produces: some number `m`
of frames parked at the contiguous indices `idx, idx+1, ..., idx+m-1`, all
on the channel the queue belongs to, appended to the accumulator in index
order; the resulting queue only keeps entries of the original. -/
theorem drainLoop_spec (ch : Nat) :
    ∀ (fuel idx : Nat) (q : List (Nat × Frame)) (acc : List Frame),
      (∀ p ∈ q, (p.2 : Frame).orderChannel = ch ∧ p.2.orderIndex = some p.1) →
      ∃ m q' dr,
        drainLoop fuel idx q acc = (idx + m, q', acc ++ dr)
          ∧ dr.map (·.orderIndex) = (List.range' idx m).map some
          ∧ (∀ f ∈ dr, f.orderChannel = ch)
          ∧ (∀ p ∈ q', p ∈ q) := by
  intro fuel
  induction fuel with
  | zero =>
      intro idx q acc _
      exact ⟨0, q, [], by simp [drainLoop], by simp, by simp, fun p hp => hp⟩
  | succ fuel ih =>
      intro idx q acc hq
      rw [drainLoop]
      cases hl : lookupMap q idx with
      | none =>
          exact ⟨0, q, [], by simp, by simp, by simp, fun p hp => hp⟩
      | some f =>
          dsimp only
          have hmem := lookupMap_mem q idx f hl
          have hf := hq (idx, f) hmem
          obtain ⟨m, q', dr, heq, hdr, hch, hsub⟩ :=
            ih (idx + 1) (eraseMap q idx) (acc ++ [f])
              (fun p hp => hq p (eraseMap_subset q idx p hp))
          refine ⟨m + 1, q', f :: dr, ?_, ?_, ?_,
            fun p hp => eraseMap_subset q idx p (hsub p hp)⟩
          · rw [heq]
            have h1 : idx + 1 + m = idx + (m + 1) := by omega
            have h2 : (acc ++ [f]) ++ dr = acc ++ f :: dr := by simp
            rw [h1, h2]
          · have hfo : f.orderIndex = some idx := hf.2
            rw [List.range'_succ]
            simp only [List.map_cons, hfo]
            rw [hdr]
          · intro g hg
            rcases List.mem_cons.mp hg with rfl | hg
            · exact hf.1
            · exact hch g hg

/-- The per-channel queue well-formedness of the ordering state: every
parked entry is keyed by its own order index and belongs to its channel. -/
def queueWF (st : OrdState) : Prop :=
  ∀ ch p, p ∈ st.inputOrderingQueue ch →
    ((p.2 : Frame).orderChannel = ch ∧ p.2.orderIndex = some p.1)

/-- The delivery invariant: on every channel, the delivered order indices
are exactly 0, 1, ..., expectation-1 in order. -/
def deliveredInv (st : OrdState) : Prop :=
  ∀ ch, deliveredOn st ch = (List.range (st.inputOrderIndex ch)).map some

/-- One ordered-frame step preserves queue well-formedness and the
delivery invariant: an on-expectation frame is delivered and the drained
run extends the delivered range contiguously; a future frame is parked
keyed by its own index; a stale frame is dropped. -/
theorem handleOrderedFrame_inv (st : OrdState) (f : Frame)
    (hwf : queueWF st) (hdel : deliveredInv st) :
    queueWF (handleOrderedFrame st f) ∧ deliveredInv (handleOrderedFrame st f) := by
  unfold handleOrderedFrame
  cases ho : f.orderIndex with
  | none => exact ⟨hwf, hdel⟩
  | some oi =>
      dsimp only
      by_cases hcase : oi = st.inputOrderIndex f.orderChannel
      · rw [if_pos hcase]
        obtain ⟨m, q', dr, hloop, hdr, hch, hsub⟩ :=
          drainLoop_spec f.orderChannel
            (st.inputOrderingQueue f.orderChannel).length
            (st.inputOrderIndex f.orderChannel + 1)
            (st.inputOrderingQueue f.orderChannel) []
            (fun p hp => hwf f.orderChannel p hp)
        rw [List.nil_append] at hloop
        rw [hloop]
        dsimp only
        constructor
        · intro ch p hp
          by_cases hc : ch = f.orderChannel
          · subst hc
            exact hwf _ p (hsub p (by simpa [updQ] using hp))
          · exact hwf ch p (by simpa [updQ, hc] using hp)
        · intro ch
          unfold deliveredOn
          dsimp only
          by_cases hc : ch = f.orderChannel
          · subst hc
            have hfo : f.orderIndex
                = some (st.inputOrderIndex f.orderChannel) := by rw [ho, hcase]
            rw [List.filter_append, List.filter_append]
            have hf1 : [f].filter (fun g => g.orderChannel = f.orderChannel) = [f] := by
              simp
            have hf2 : dr.filter (fun g => g.orderChannel = f.orderChannel) = dr :=
              List.filter_eq_self.mpr (fun g hg => decide_eq_true (hch g hg))
            rw [hf1, hf2, List.map_append, List.map_append]
            have hbase := hdel f.orderChannel
            unfold deliveredOn at hbase
            rw [hbase, hdr]
            simp only [List.map_cons, List.map_nil, hfo]
            rw [show [some (st.inputOrderIndex f.orderChannel)]
                = List.map some [st.inputOrderIndex f.orderChannel] from rfl]
            rw [← List.map_append, ← List.map_append, range_extend]
            simp [updAt]
          · have hc' : f.orderChannel ≠ ch := fun h => hc h.symm
            have hf1 : [f].filter (fun g => g.orderChannel = ch) = [] := by
              simp [hc']
            have hf2 : dr.filter (fun g => g.orderChannel = ch) = [] := by
              refine List.filter_eq_nil_iff.mpr (fun g hg => ?_)
              simp only [decide_eq_true_eq]
              rw [hch g hg]
              exact hc'
            rw [List.filter_append, List.filter_append, hf1, hf2]
            simp only [List.append_nil]
            have hbase := hdel ch
            unfold deliveredOn at hbase
            rw [hbase]
            simp [updAt, hc]
      · rw [if_neg hcase]
        by_cases hgt : oi > st.inputOrderIndex f.orderChannel
        · rw [if_pos hgt]
          constructor
          · intro ch p hp
            by_cases hc : ch = f.orderChannel
            · subst hc
              have hp' : p ∈ insertMap (st.inputOrderingQueue f.orderChannel)
                  oi f := by simpa [updQ] using hp
              rcases insertMap_mem _ _ _ _ hp' with rfl | hp''
              · exact ⟨rfl, ho⟩
              · exact hwf _ p hp''
            · exact hwf ch p (by simpa [updQ, hc] using hp)
          · exact hdel
        · rw [if_neg hgt]
          exact ⟨hwf, hdel⟩

/-- Any run of inbound ordered frames keeps the ordering invariants. -/
theorem runOrdered_inv (frames : List Frame) :
    queueWF (runOrdered frames) ∧ deliveredInv (runOrdered frames) := by
  unfold runOrdered
  suffices h : ∀ st, queueWF st → deliveredInv st →
      queueWF (frames.foldl handleOrderedFrame st)
        ∧ deliveredInv (frames.foldl handleOrderedFrame st) from
    h initOrd (fun ch p hp => absurd hp (List.not_mem_nil p)) (fun ch => rfl)
  induction frames with
  | nil => intro st hwf hdel; exact ⟨hwf, hdel⟩
  | cons f frames ih =>
      intro st hwf hdel
      obtain ⟨hwf', hdel'⟩ := handleOrderedFrame_inv st f hwf hdel
      exact ih _ hwf' hdel'

/-- C7: an inbound ordered frame at the expected index is processed and the
expectation advanced (draining the contiguous parked frames in ascending
order), a frame beyond the expectation is parked, a stale frame is
dropped; consequently, on every channel the upper layer receives payloads
in strictly ascending order-index order, 0, 1, 2, ... without duplicates —
in particular arrival order 0, 2, 1 on channel 0 delivers payloads in
index order 0, 1, 2. -/
theorem C7_ordered_delivery :
    (∀ (st : OrdState) (f : Frame) (oi : Nat), f.orderIndex = some oi →
        oi < st.inputOrderIndex f.orderChannel → handleOrderedFrame st f = st)
      ∧ (∀ (st : OrdState) (f : Frame) (oi : Nat), f.orderIndex = some oi →
          oi > st.inputOrderIndex f.orderChannel →
          handleOrderedFrame st f
            = { st with
                inputOrderingQueue :=
                  updQ st.inputOrderingQueue f.orderChannel
                    (insertMap (st.inputOrderingQueue f.orderChannel) oi f) })
      ∧ (∀ (frames : List Frame) (ch : Nat),
          deliveredOn (runOrdered frames) ch
            = (List.range ((runOrdered frames).inputOrderIndex ch)).map some)
      ∧ (runOrdered
            [{ reliability := .reliableOrdered, orderChannel := 0, payload := [10],
               orderIndex := some 0 },
             { reliability := .reliableOrdered, orderChannel := 0, payload := [12],
               orderIndex := some 2 },
             { reliability := .reliableOrdered, orderChannel := 0, payload := [11],
               orderIndex := some 1 }]).delivered.map (·.payload)
          = [[10], [11], [12]] := by
  refine ⟨?_, ?_, ?_, by decide⟩
  · intro st f oi ho hlt
    unfold handleOrderedFrame
    rw [ho]
    dsimp only
    rw [if_neg (by omega), if_neg (by omega)]
  · intro st f oi ho hgt
    unfold handleOrderedFrame
    rw [ho]
    dsimp only
    rw [if_neg (by omega), if_pos hgt]
  · intro frames ch
    exact (runOrdered_inv frames).2 ch

/-- Witness for C7: from an expectation of 1, a stale frame (index 0) is
dropped and a future frame (index 3) is parked under its own index. -/
theorem C7_witness :
    (let st : OrdState := { inputOrderIndex := fun _ => 1 }
     let f0 : Frame :=
       { reliability := .reliableOrdered, orderChannel := 0, payload := [7],
         orderIndex := some 0 }
     let f3 : Frame :=
       { reliability := .reliableOrdered, orderChannel := 0, payload := [7],
         orderIndex := some 3 }
     handleOrderedFrame st f0 = st
       ∧ handleOrderedFrame st f3
         = { st with
             inputOrderingQueue :=
               updQ st.inputOrderingQueue 0
                 (insertMap (st.inputOrderingQueue 0) 3 f3) }) :=
  ⟨C7_ordered_delivery.1 _ _ 0 rfl (by decide),
   C7_ordered_delivery.2.1 _ _ 3 rfl (by decide)⟩

/-- A varint encoding is never empty. -/
theorem varintEncAux_ne_nil (fuel n : Nat) : varintEncAux fuel n ≠ [] := by
  cases fuel with
  | zero => simp [varintEncAux]
  | succ fuel => rw [varintEncAux]; split_ifs <;> simp

/-- Decoding a varint encoding returns the value and the trailing bytes. -/
theorem varintDec_encAux (t : List Nat) :
    ∀ fuel n, n ≤ fuel → varintDec (varintEncAux fuel n ++ t) = some (n, t) := by
  intro fuel
  induction fuel with
  | zero =>
      intro n hn
      have hz : n = 0 := Nat.le_zero.mp hn
      subst hz
      simp [varintEncAux, varintDec]
  | succ fuel ih =>
      intro n hn
      rw [varintEncAux]
      split_ifs with h
      · simp [varintDec, h]
      · simp only [List.cons_append, varintDec]
        rw [if_neg (by omega)]
        have hrec := ih (n / 128) (by omega)
        simp only [List.append_eq] at hrec ⊢
        rw [hrec]
        dsimp only
        have hval : (n % 128 + 128) % 128 + 128 * (n / 128) = n := by omega
        rw [hval]

/-- Decoding the varint length prefix of a framed packet. -/
theorem varintDec_enc (n : Nat) (t : List Nat) :
    varintDec (varintEnc n ++ t) = some (n, t) :=
  varintDec_encAux t n n (Nat.le_refl n)

/-- Unframing a framed batch recovers the packet list, given enough
fuel. -/
theorem unframeAux_frameBatch :
    ∀ (ps : List (List Nat)) (fuel : Nat), (frameBatch ps).length ≤ fuel →
      unframeAux fuel (frameBatch ps) = ps := by
  intro ps
  induction ps with
  | nil =>
      intro fuel _
      cases fuel <;> rfl
  | cons p ps ih =>
      intro fuel hfuel
      have hcons : frameBatch (p :: ps)
          = varintEnc p.length ++ (p ++ frameBatch ps) := by
        show varintEnc p.length ++ p ++ frameBatch ps = _
        rw [List.append_assoc]
      have hene : 1 ≤ (varintEnc p.length).length :=
        List.length_pos.mpr (varintEncAux_ne_nil _ _)
      cases fuel with
      | zero =>
          rw [hcons] at hfuel
          simp only [List.length_append] at hfuel
          omega
      | succ fuel =>
          rw [hcons, unframeAux, varintDec_enc]
          dsimp only
          rw [List.take_left, List.drop_left]
          rw [ih fuel ?_]
          · rw [hcons] at hfuel
            simp only [List.length_append] at hfuel
            omega
          · intro hnil
            exact varintEncAux_ne_nil _ _ (List.append_eq_nil.mp hnil).1

/-- Unframing a framed batch recovers the packet list. -/
theorem unframe_frameBatch (ps : List (List Nat)) :
    unframeBatch (frameBatch ps) = ps :=
  unframeAux_frameBatch ps (frameBatch ps).length (Nat.le_refl _)

/-- C6: for every packet list and every compression state, decoding the
encode path (varint framing then `compressPayload`) with the same state
recovers exactly the original list — raw-deflate is inverted by
raw-inflate, the None tag and the pre-compression path pass the framed
bytes through — and during decoding any algorithm byte other than Zlib
(Snappy included) leaves the data raw and splits it by varint framing. -/
theorem C6_batch_roundtrip (deflate inflate : List Nat → List Nat)
    (hinv : ∀ x, inflate (deflate x) = x) :
    (∀ (ready : Bool) (threshold method : Nat) (ps : List (List Nat)),
        decodeGamePackets inflate ready
          (compressPayload deflate ready threshold method (frameBatch ps)) = ps)
      ∧ (∀ (b : Nat) (rest : List Nat), b ≠ methodZlib →
          decodeGamePackets inflate true (b :: rest) = unframeBatch rest) := by
  constructor
  · intro ready threshold method ps
    cases ready with
    | false =>
        show unframeBatch (compressPayload deflate false threshold method
          (frameBatch ps)) = ps
        unfold compressPayload
        simp only [Bool.not_false, if_true, ite_true]
        exact unframe_frameBatch ps
    | true =>
        unfold compressPayload
        simp only [Bool.not_true, Bool.false_eq_true, if_false]
        split_ifs with hcond
        · show decodeGamePackets inflate true
            (methodZlib :: deflate (frameBatch ps)) = ps
          unfold decodeGamePackets
          simp only [if_true, ite_true, if_pos rfl]
          rw [hinv]
          exact unframe_frameBatch ps
        · show decodeGamePackets inflate true
            (methodNone :: frameBatch ps) = ps
          unfold decodeGamePackets
          simp only [if_true, ite_true]
          rw [if_neg (by unfold methodNone methodZlib; omega)]
          exact unframe_frameBatch ps
  · intro b rest hb
    unfold decodeGamePackets
    simp only [if_true, ite_true]
    rw [if_neg hb]

/-- Witness for C6 at a concrete batch, compressed and Snappy-tagged. -/
theorem C6_witness :
    decodeGamePackets id true
        (compressPayload id true 0 methodZlib (frameBatch [[1, 2], [3]]))
      = [[1, 2], [3]]
      ∧ decodeGamePackets id true (methodSnappy :: frameBatch [[4]])
        = unframeBatch (frameBatch [[4]]) :=
  ⟨(C6_batch_roundtrip id id (fun _ => rfl)).1 true 0 methodZlib [[1, 2], [3]],
   (C6_batch_roundtrip id id (fun _ => rfl)).2 methodSnappy (frameBatch [[4]])
     (by decide)⟩

/-- The ordering assignment leaves the ghost log unchanged. -/
theorem assignOrdering_enqueued (st : QueueState) (f : Frame) :
    (assignOrdering st f).1.enqueued = st.enqueued := by
  unfold assignOrdering; split_ifs <;> rfl

/-- The ordering assignment leaves the reliable counter unchanged. -/
theorem assignOrdering_counter (st : QueueState) (f : Frame) :
    (assignOrdering st f).1.reliableCounter = st.reliableCounter := by
  unfold assignOrdering; split_ifs <;> rfl

/-- The ordering assignment leaves the fragment counter unchanged. -/
theorem assignOrdering_fragmentCounter (st : QueueState) (f : Frame) :
    (assignOrdering st f).1.fragmentCounter = st.fragmentCounter := by
  unfold assignOrdering; split_ifs <;> rfl

/-- The ordering assignment leaves the frame payload unchanged. -/
theorem assignOrdering_payload (st : QueueState) (f : Frame) :
    (assignOrdering st f).2.payload = f.payload := by
  unfold assignOrdering; split_ifs <;> rfl

/-- The ordering assignment leaves reliability and channel unchanged. -/
theorem assignOrdering_reliability (st : QueueState) (f : Frame) :
    (assignOrdering st f).2.reliability = f.reliability
      ∧ (assignOrdering st f).2.orderChannel = f.orderChannel := by
  unfold assignOrdering; split_ifs <;> exact ⟨rfl, rfl⟩

/-- The chunk positions produced by `chunksFrom j` are the contiguous run
`j, j+1, ...` of length `fragmentCount` of the payload length. -/
theorem chunksFrom_map_fst :
    ∀ (fuel : Nat) (l : List Nat) (j : Nat), l.length ≤ fuel →
      (chunksFrom j fuel l).map (·.1) = List.range' j (fragmentCount l.length) := by
  intro fuel
  induction fuel with
  | zero =>
      intro l j hl
      have : l = [] := List.length_eq_zero.mp (Nat.le_zero.mp hl)
      subst this
      simp [chunksFrom, fragmentCount, maxFragmentSize, mtu]
  | succ fuel ih =>
      intro l j hl
      cases l with
      | nil => simp [chunksFrom, fragmentCount, maxFragmentSize, mtu]
      | cons a l' =>
          have hms : maxFragmentSize = 1463 := rfl
          rw [chunksFrom]
          · simp only [List.map_cons]
            rw [ih ((a :: l').drop maxFragmentSize) (j + 1)
              (by simp only [List.length_drop, List.length_cons] at hl ⊢; omega)]
            rw [List.length_drop]
            have hcount : fragmentCount (a :: l').length
                = fragmentCount ((a :: l').length - maxFragmentSize) + 1 := by
              simp only [fragmentCount, maxFragmentSize, mtu, List.length_cons]
              omega
            rw [hcount, List.range'_succ]
          · simp

/-- Concatenating the chunks of a payload recovers the payload. -/
theorem chunksFrom_flatten :
    ∀ (fuel : Nat) (l : List Nat) (j : Nat), l.length ≤ fuel →
      ((chunksFrom j fuel l).map (·.2)).flatten = l := by
  intro fuel
  induction fuel with
  | zero =>
      intro l j hl
      have : l = [] := List.length_eq_zero.mp (Nat.le_zero.mp hl)
      subst this
      rfl
  | succ fuel ih =>
      intro l j hl
      cases l with
      | nil => rfl
      | cons a l' =>
          have hms : maxFragmentSize = 1463 := rfl
          rw [chunksFrom]
          · simp only [List.map_cons, List.flatten_cons]
            rw [ih ((a :: l').drop maxFragmentSize) (j + 1)
              (by simp only [List.length_drop, List.length_cons] at hl ⊢; omega)]
            exact List.take_append_drop maxFragmentSize (a :: l')
          · simp

/-- What the fragment loop appends to the ghost log over chunks at
positions `j, j+1, ...` (all nonzero): one `mkFragment` per chunk, the
chunk at position `i` carrying reliable index `counter + (i - j)`. -/
theorem fragLoop_chunks_enqueued (base : Frame) (fid fsize : Nat) (prio : Priority) :
    ∀ (fuel j : Nat) (l : List Nat) (st : QueueState) (rel : Nat), 1 ≤ j →
      (fragLoop base fid fsize prio (chunksFrom j fuel l) st rel).enqueued
        = st.enqueued ++ (chunksFrom j fuel l).map
            (fun ic => mkFragment base fid fsize ic.1 ic.2
              (st.reliableCounter + (ic.1 - j))) := by
  intro fuel
  induction fuel with
  | zero => intro j l st rel hj; simp [chunksFrom, fragLoop]
  | succ fuel ih =>
      intro j l st rel hj
      cases l with
      | nil => simp [chunksFrom, fragLoop]
      | cons a l' =>
          rw [chunksFrom]
          · rw [fragLoop, if_neg (by omega)]
            rw [ih (j + 1) ((a :: l').drop maxFragmentSize) _ st.reliableCounter
              (by omega)]
            rw [(addFrameToQueue_ghost _ _ _).1, (addFrameToQueue_ghost _ _ _).2]
            rw [List.append_assoc, List.singleton_append, List.map_cons]
            congr 1
            congr 1
            · simp [mkFragment]
            · refine List.map_congr_left (fun ic hic => ?_)
              have hge := chunksFrom_pos fuel (j + 1) ((a :: l').drop maxFragmentSize)
                ic hic
              have harith : st.reliableCounter + 1 + (ic.1 - (j + 1))
                  = st.reliableCounter + (ic.1 - j) := by omega
              rw [mkFragment, mkFragment, harith]
          · simp

/-- What the fragmentation branch of `sendFrame` appends to the ghost
log: one `mkFragment` per chunk, at ascending positions, the fragment at
position `i` carrying reliable index `rel + i`. -/
theorem sendFrameAssigned_enqueued (st : QueueState) (f : Frame) (rel : Nat)
    (prio : Priority) (hfrag : maxFragmentSize < f.payload.length)
    (hcnt : st.reliableCounter = rel + 1) :
    (sendFrameAssigned st f rel prio).enqueued
      = st.enqueued ++ (chunksFrom 0 f.payload.length f.payload).map
          (fun ic => mkFragment f (st.fragmentCounter % 65536)
            (fragmentCount f.payload.length) ic.1 ic.2 (rel + ic.1)) := by
  unfold sendFrameAssigned
  rw [if_pos hfrag]
  rcases hp : f.payload with _ | ⟨b, rest⟩
  · rw [hp] at hfrag; simp [maxFragmentSize, mtu] at hfrag
  · rw [show (b :: rest).length = rest.length + 1 from rfl, chunksFrom]
    · rw [fragLoop, if_pos rfl]
      rw [fragLoop_chunks_enqueued f (st.fragmentCounter % 65536)
        ((rest.length + 1 + maxFragmentSize - 1) / maxFragmentSize) prio
        rest.length 1 ((b :: rest).drop maxFragmentSize) _ rel (by omega)]
      rw [(addFrameToQueue_ghost _ _ _).1, (addFrameToQueue_ghost _ _ _).2]
      rw [List.append_assoc, List.singleton_append, List.map_cons]
      congr 1
      congr 1
      rw [show (0 + 1 : Nat) = 1 from rfl]
      refine List.map_congr_left ?_
      intro ic hic
      have hge := chunksFrom_pos rest.length 1 ((b :: rest).drop maxFragmentSize)
        ic hic
      have harith : ({ st with fragmentCounter := st.fragmentCounter + 1 }
          : QueueState).reliableCounter + (ic.1 - 1) = rel + ic.1 := by
        show st.reliableCounter + (ic.1 - 1) = rel + ic.1
        omega
      rw [harith]
      rfl
    · simp

/-- The ghost log of a fragmented send from the fresh queue: one fragment
frame per chunk, fragment id 0, fragment size `fragmentCount`, the
fragment at position `i` with reliable index `i`, all derived from the
frame as it stands after the ordering assignment. -/
theorem sendFrame_initQueue_enqueued (f0 : Frame) (prio : Priority)
    (hfrag : maxFragmentSize < f0.payload.length) :
    (sendFrame initQueue f0 prio).enqueued
      = (chunksFrom 0 f0.payload.length f0.payload).map
          (fun ic => mkFragment (assignOrdering initQueue f0).2 0
            (fragmentCount f0.payload.length) ic.1 ic.2 ic.1) := by
  have hpay : ({ (assignOrdering initQueue f0).2 with
      reliableIndex := some (assignOrdering initQueue f0).1.reliableCounter }
        : Frame).payload = f0.payload := by
    show (assignOrdering initQueue f0).2.payload = f0.payload
    exact assignOrdering_payload initQueue f0
  unfold sendFrame
  rw [sendFrameAssigned_enqueued _ _ _ prio (by rw [hpay]; exact hfrag) rfl]
  rw [show ({ (assignOrdering initQueue f0).1 with
      reliableCounter := (assignOrdering initQueue f0).1.reliableCounter + 1 }
        : QueueState).enqueued = (assignOrdering initQueue f0).1.enqueued from rfl]
  rw [assignOrdering_enqueued]
  rw [show (initQueue.enqueued : List Frame) = [] from rfl, List.nil_append]
  rw [hpay]
  refine List.map_congr_left (fun ic hic => ?_)
  have hfc : ({ (assignOrdering initQueue f0).1 with
      reliableCounter := (assignOrdering initQueue f0).1.reliableCounter + 1 }
        : QueueState).fragmentCounter = 0 := by
    show (assignOrdering initQueue f0).1.fragmentCounter = 0
    rw [assignOrdering_fragmentCounter]
    rfl
  have hrel : (assignOrdering initQueue f0).1.reliableCounter = 0 := by
    rw [assignOrdering_counter]
    rfl
  rw [hfc, hrel, mkFragment, mkFragment, Nat.zero_add]

set_option maxRecDepth 4000 in
/-- The send of a fragmented ReliableOrdered channel-0 payload from the
fresh queue enqueues exactly the canonical fragment list. -/
theorem sendFrame_fragListOf (p : List Nat) (hp : maxFragmentSize < p.length) :
    (sendFrame initQueue
        { reliability := .reliableOrdered, orderChannel := 0, payload := p }
        Priority.normal).enqueued = fragListOf p := by
  rw [sendFrame_initQueue_enqueued _ Priority.normal hp]
  unfold fragListOf
  refine List.map_congr_left (fun ic hic => ?_)
  rfl

/-- The map keys `handleFragment` uses for the canonical fragment list:
exactly `0, 1, ..., fragmentCount - 1`. -/
theorem fragListOf_keys (p : List Nat) :
    (fragListOf p).map fragKey = List.range' 0 (fragmentCount p.length) := by
  unfold fragListOf
  rw [List.map_map]
  exact (List.map_congr_left fun ic _ => rfl).trans
    (chunksFrom_map_fst p.length p 0 (Nat.le_refl _))

/-- Any permutation of the canonical fragment list has pairwise distinct
fragment indices. -/
theorem perm_fragKey_nodup (p : List Nat) (l : List Frame)
    (hperm : l.Perm (fragListOf p)) : (l.map fragKey).Nodup := by
  rw [(hperm.map fragKey).nodup_iff, fragListOf_keys, ← List.range_eq_range']
  exact List.nodup_range _

/-- In an association list with pairwise distinct keys, lookup of a member
entry finds exactly that entry. -/
theorem lookupMap_eq_of_mem_nodup {α : Type} :
    ∀ (q : List (Nat × α)), (q.map (fun pr => pr.1)).Nodup →
      ∀ (j : Nat) (v : α), (j, v) ∈ q → lookupMap q j = some v := by
  intro q
  induction q with
  | nil => intro _ j v hm; exact absurd hm (List.not_mem_nil _)
  | cons pr q ih =>
      intro hnd j v hm
      rw [List.map_cons, List.nodup_cons] at hnd
      by_cases hj : pr.1 = j
      · have hv : pr.2 = v := by
          rcases List.mem_cons.mp hm with h | h
          · rw [← h]
          · exact absurd (hj ▸ List.mem_map.mpr ⟨(j, v), h, rfl⟩) hnd.1
        unfold lookupMap
        rw [List.find?_cons_of_pos _ (by simp [hj]), Option.map_some', hv]
      · have hm' : (j, v) ∈ q := by
          rcases List.mem_cons.mp hm with h | h
          · exact absurd (congrArg Prod.fst h).symm hj
          · exact h
        unfold lookupMap
        rw [List.find?_cons_of_neg _ (by simp [hj])]
        exact ih hnd.2 j v hm'

/-- Parking a fragment with a fresh index extends the per-id map without
emitting anything, as long as the map is still short of `fragmentSize`. -/
theorem handleFragment_mid (k : Nat) (s : List Frame) (f : Frame)
    (hid : f.fragmentId = some 0) (hsz : f.fragmentSize = some k)
    (hkey : fragKey f ∉ s.map fragKey)
    (hne : s.length + 1 ≠ k) :
    handleFragment [(0, s.map fragEntry)] f
      = ([(0, (s ++ [f]).map fragEntry)], none) := by
  have herase : eraseMap (s.map fragEntry) (f.fragmentIndex.getD 0)
      = s.map fragEntry := by
    apply List.filter_eq_self.mpr
    intro pr hpr
    obtain ⟨g, hg, rfl⟩ := List.mem_map.mp hpr
    simp only [decide_eq_true_eq]
    intro hEq
    have hEq2 : fragKey g = fragKey f := hEq
    exact hkey (hEq2 ▸ List.mem_map.mpr ⟨g, hg, rfl⟩)
  have hq : insertMap (s.map fragEntry) (f.fragmentIndex.getD 0) f
      = (s ++ [f]).map fragEntry := by
    unfold insertMap
    rw [herase, List.map_append]
    rfl
  simp only [handleFragment, hid, Option.getD_some]
  rw [show lookupMap [(0, s.map fragEntry)] 0 = some (s.map fragEntry) from rfl]
  simp only [Option.getD_some]
  rw [hq, hsz]
  simp only [Option.getD_some]
  rw [if_neg (by
    simp only [List.length_map, List.length_append, List.length_cons,
      List.length_nil]
    exact hne)]
  rfl

/-- When the arriving fragment completes the per-id map, `handleFragment`
drops the id from the store and emits one reassembled frame whose payload
concatenates the parked payloads in fragment-index order. -/
theorem handleFragment_final (k : Nat) (s : List Frame) (f : Frame)
    (hid : f.fragmentId = some 0) (hsz : f.fragmentSize = some k)
    (hkey : fragKey f ∉ s.map fragKey)
    (heq : s.length + 1 = k) :
    handleFragment [(0, s.map fragEntry)] f
      = ([], some
          { reliability := f.reliability
            orderChannel := f.orderChannel
            orderIndex := f.orderIndex
            sequenceIndex := f.sequenceIndex
            reliableIndex := f.reliableIndex
            payload := ((List.range k).map
              (fun i => ((lookupMap ((s ++ [f]).map fragEntry) i).map
                (fun g => g.payload)).getD [])).flatten }) := by
  have herase : eraseMap (s.map fragEntry) (f.fragmentIndex.getD 0)
      = s.map fragEntry := by
    apply List.filter_eq_self.mpr
    intro pr hpr
    obtain ⟨g, hg, rfl⟩ := List.mem_map.mp hpr
    simp only [decide_eq_true_eq]
    intro hEq
    have hEq2 : fragKey g = fragKey f := hEq
    exact hkey (hEq2 ▸ List.mem_map.mpr ⟨g, hg, rfl⟩)
  have hq : insertMap (s.map fragEntry) (f.fragmentIndex.getD 0) f
      = (s ++ [f]).map fragEntry := by
    unfold insertMap
    rw [herase, List.map_append]
    rfl
  have hqlen : ((s ++ [f]).map fragEntry).length = k := by
    simp only [List.length_map, List.length_append, List.length_cons,
      List.length_nil]
    exact heq
  simp only [handleFragment, hid, Option.getD_some]
  rw [show lookupMap [(0, s.map fragEntry)] 0 = some (s.map fragEntry) from rfl]
  simp only [Option.getD_some]
  rw [hq, hsz]
  simp only [Option.getD_some]
  rw [if_pos hqlen, hqlen]
  rfl

/-- An empty `handleFragment` store behaves exactly like a store holding an
empty per-id map for fragment id 0. -/
theorem handleFragment_nil_eq (f : Frame) (hid : f.fragmentId = some 0) :
    handleFragment [] f = handleFragment [(0, [])] f := by
  unfold handleFragment
  rw [hid]
  rfl

/-- Running the reassembler over the remaining fragments of a single
fragment id: starting from a store holding the already-arrived fragments
`s`, a nonempty remainder that completes the count `k` drives the store
back to empty and emits exactly one frame whose payload gathers the
per-index payloads of all `k` fragments. -/
theorem foldFrag_run (k : Nat) :
    ∀ (rest : List Frame), rest ≠ [] →
      ∀ (s out : List Frame),
      (∀ f ∈ rest, f.fragmentId = some 0 ∧ f.fragmentSize = some k) →
      ((s ++ rest).map fragKey).Nodup →
      s.length + rest.length = k →
      ∃ re, List.foldl fragStep ([(0, s.map fragEntry)], out) rest
          = ([], out ++ [re])
        ∧ re.payload = ((List.range k).map
            (fun i => ((lookupMap ((s ++ rest).map fragEntry) i).map
              (fun g => g.payload)).getD [])).flatten := by
  intro rest
  induction rest with
  | nil => intro hne; exact absurd rfl hne
  | cons f rest ih =>
      intro _ s out hmeta hnd hlen
      have hidf := (hmeta f (List.mem_cons_self f rest)).1
      have hszf := (hmeta f (List.mem_cons_self f rest)).2
      have hkey : fragKey f ∉ s.map fragKey := by
        intro hmem
        rw [List.map_append] at hnd
        exact (List.nodup_append.mp hnd).2.2 hmem
          (by rw [List.map_cons]; exact List.mem_cons_self _ _)
      cases rest with
      | nil =>
          rw [List.foldl_cons, List.foldl_nil]
          have heq1 : s.length + 1 = k := by
            simp only [List.length_cons, List.length_nil] at hlen
            omega
          have hfin := handleFragment_final k s f hidf hszf hkey heq1
          refine ⟨{ reliability := f.reliability
                    orderChannel := f.orderChannel
                    orderIndex := f.orderIndex
                    sequenceIndex := f.sequenceIndex
                    reliableIndex := f.reliableIndex
                    payload := ((List.range k).map
                      (fun i => ((lookupMap ((s ++ [f]).map fragEntry) i).map
                        (fun g => g.payload)).getD [])).flatten }, ?_, rfl⟩
          simp only [fragStep]
          rw [hfin]
          rfl
      | cons g rest' =>
          have hne2 : s.length + 1 ≠ k := by
            simp only [List.length_cons] at hlen
            omega
          have hmid := handleFragment_mid k s f hidf hszf hkey hne2
          rw [List.foldl_cons]
          rw [show fragStep ([(0, s.map fragEntry)], out) f
              = ([(0, (s ++ [f]).map fragEntry)], out) from by
            simp only [fragStep]
            rw [hmid]
            simp]
          obtain ⟨re, hrun, hpay⟩ := ih (List.cons_ne_nil g rest') (s ++ [f]) out
            (fun h hh => hmeta h (List.mem_cons_of_mem f hh))
            (by rw [List.append_assoc, List.singleton_append]; exact hnd)
            (by simp only [List.length_append, List.length_cons,
                  List.length_nil] at hlen ⊢
                omega)
          rw [List.append_assoc, List.singleton_append] at hpay
          exact ⟨re, hrun, hpay⟩

/-- Looking up every fragment index in the full store built from a
permuted canonical fragment list and concatenating the payloads recovers
the original payload. -/
theorem reassembly_payload (p : List Nat) (l : List Frame)
    (hperm : l.Perm (fragListOf p)) :
    ((List.range (fragmentCount p.length)).map
      (fun i => ((lookupMap (l.map fragEntry) i).map
        (fun g => g.payload)).getD [])).flatten = p := by
  have hknd : ((l.map fragEntry).map (fun pr => pr.1)).Nodup := by
    rw [List.map_map]
    exact perm_fragKey_nodup p l hperm
  have hpoint : ∀ ic ∈ chunksFrom 0 p.length p,
      ((fun i => ((lookupMap (l.map fragEntry) i).map
          (fun g => g.payload)).getD [])
        ∘ (fun pr => pr.1)) ic = ic.2 := by
    intro ic hic
    show ((lookupMap (l.map fragEntry) ic.1).map (fun g => g.payload)).getD []
      = ic.2
    have h1 : fragFrame (fragmentCount p.length) ic.1 ic.2 ∈ fragListOf p :=
      List.mem_map.mpr ⟨ic, hic, rfl⟩
    have h2 : fragEntry (fragFrame (fragmentCount p.length) ic.1 ic.2)
        ∈ (fragListOf p).map fragEntry := List.mem_map.mpr ⟨_, h1, rfl⟩
    have hmem : (ic.1, fragFrame (fragmentCount p.length) ic.1 ic.2)
        ∈ l.map fragEntry := (hperm.map fragEntry).mem_iff.mpr h2
    rw [lookupMap_eq_of_mem_nodup (l.map fragEntry) hknd ic.1 _ hmem]
    rfl
  rw [List.range_eq_range', ← chunksFrom_map_fst p.length p 0 (Nat.le_refl _),
    List.map_map, List.map_congr_left hpoint]
  exact chunksFrom_flatten p.length p 0 (Nat.le_refl _)

/-- Feeding any permutation of the canonical fragment list of a nonempty
payload through the reassembler yields exactly one reassembled frame, and
it carries the original payload. -/
theorem processFragList_of_perm (p : List Nat) (l : List Frame)
    (hp : 0 < p.length) (hperm : l.Perm (fragListOf p)) :
    (processFragList l).2.map (fun g => g.payload) = [p] := by
  have hchlen : (chunksFrom 0 p.length p).length = fragmentCount p.length := by
    have h := congrArg List.length (chunksFrom_map_fst p.length p 0 (Nat.le_refl _))
    rwa [List.length_map, List.length_range'] at h
  have hlenl : l.length = fragmentCount p.length := by
    rw [hperm.length_eq]
    unfold fragListOf
    rw [List.length_map]
    exact hchlen
  have hms : maxFragmentSize = 1463 := rfl
  have hk : 0 < fragmentCount p.length := by
    simp only [fragmentCount, hms]
    omega
  have hmeta : ∀ g ∈ l, g.fragmentId = some 0
      ∧ g.fragmentSize = some (fragmentCount p.length) := by
    intro g hg
    obtain ⟨ic, _, rfl⟩ := List.mem_map.mp (hperm.mem_iff.mp hg)
    exact ⟨rfl, rfl⟩
  cases l with
  | nil =>
      simp only [List.length_nil] at hlenl
      omega
  | cons f tl =>
      have hidf := (hmeta f (List.mem_cons_self f tl)).1
      obtain ⟨re, hrun, hpay⟩ := foldFrag_run (fragmentCount p.length) (f :: tl)
        (List.cons_ne_nil f tl) [] [] hmeta
        (by rw [List.nil_append]; exact perm_fragKey_nodup p _ hperm)
        (by simp only [List.length_nil, List.length_cons] at hlenl ⊢; omega)
      have h0 : processFragList (f :: tl)
          = List.foldl fragStep
              ([(0, ([] : List Frame).map fragEntry)], ([] : List Frame))
              (f :: tl) := by
        show List.foldl fragStep (([] : FragMap), ([] : List Frame)) (f :: tl) = _
        rw [List.foldl_cons, List.foldl_cons]
        have hstep : fragStep (([] : FragMap), ([] : List Frame)) f
            = fragStep ([(0, ([] : List Frame).map fragEntry)],
                ([] : List Frame)) f := by
          simp only [fragStep, List.map_nil]
          rw [handleFragment_nil_eq f hidf]
        rw [hstep]
      rw [h0, hrun]
      rw [List.nil_append] at hpay
      simp only [List.nil_append, List.map_cons, List.map_nil]
      rw [hpay, reassembly_payload p (f :: tl) hperm]

/-- C8 counterexample: for a sequenced-reliability frame, `sendFrame`
assigns the frame a sequence index (here 0, consuming the channel
counter), but the fragment frames are built without copying it — every
enqueued fragment carries no sequence index — so the fragments do not
share the sequence index assigned to the payload, contrary to the claim. -/
theorem C8_counterexample :
    (assignOrdering initQueue
        { reliability := .reliableSequenced, orderChannel := 0,
          payload := List.replicate 1464 5 }).2.sequenceIndex = some 0
      ∧ (∀ f ∈ (sendFrame initQueue
          { reliability := .reliableSequenced, orderChannel := 0,
            payload := List.replicate 1464 5 } Priority.normal).enqueued,
          f.sequenceIndex = none)
      ∧ (sendFrame initQueue
          { reliability := .reliableSequenced, orderChannel := 0,
            payload := List.replicate 1464 5 } Priority.normal).enqueued ≠ []
      ∧ (none : Option Nat) ≠ some 0 := by
  have hlen : maxFragmentSize
      < ({ reliability := .reliableSequenced, orderChannel := 0,
           payload := List.replicate 1464 5 } : Frame).payload.length := by
    show maxFragmentSize < (List.replicate 1464 5).length
    rw [List.length_replicate]
    decide
  have henq := sendFrame_initQueue_enqueued
    { reliability := .reliableSequenced, orderChannel := 0,
      payload := List.replicate 1464 5 } Priority.normal hlen
  refine ⟨rfl, ?_, ?_, by decide⟩
  · intro f hf
    rw [henq] at hf
    obtain ⟨ic, _, rfl⟩ := List.mem_map.mp hf
    rfl
  · rw [henq]
    have h1 : ({ reliability := Reliability.reliableSequenced,
                 orderChannel := 0,
                 payload := List.replicate 1464 5 } : Frame).payload
        = 5 :: List.replicate 1463 5 := rfl
    rw [h1]
    rw [show (5 :: List.replicate 1463 5).length
      = (List.replicate 1463 5).length + 1 from rfl]
    rw [chunksFrom]
    · rw [List.map_cons]
      exact List.cons_ne_nil _ _
    · exact fun h => absurd h (List.cons_ne_nil _ _)

/-- C8: for a payload longer than `maxFragmentSize` (= MTU − 29 = 1463
bytes) sent ReliableOrdered on channel 0 from the fresh queue, `sendFrame`
enqueues exactly `ceil(n / 1463)` fragment frames sharing fragment id 0
(the next fragment id, taken modulo 2^16), fragment size `ceil(n / 1463)`
and the order index, with ascending fragment indices `0, 1, ...`, each
fragment taking its own reliable index, and their payloads concatenating
to the original bytes; the fragments carry no sequence index (the field is
not copied into the fragment frames — see the counterexample).  Feeding
the fragments to `handleFragment` in any arrival order yields exactly one
reassembled frame whose payload is the exact original payload. -/
theorem C8_fragment_split_and_reassembly (p : List Nat)
    (hp : maxFragmentSize < p.length) :
    (sendFrame initQueue
        { reliability := .reliableOrdered, orderChannel := 0, payload := p }
        Priority.normal).enqueued = fragListOf p
      ∧ (fragListOf p).length = fragmentCount p.length
      ∧ (fragListOf p).map (fun f => f.fragmentIndex)
          = (List.range (fragmentCount p.length)).map some
      ∧ (∀ f ∈ fragListOf p, f.fragmentId = some 0
          ∧ f.fragmentSize = some (fragmentCount p.length)
          ∧ f.orderIndex = some 0 ∧ f.sequenceIndex = none)
      ∧ (fragListOf p).map (fun f => f.reliableIndex)
          = (List.range (fragmentCount p.length)).map some
      ∧ ((fragListOf p).map (fun f => f.payload)).flatten = p
      ∧ ∀ l : List Frame, l.Perm (fragListOf p) →
          (processFragList l).2.map (fun g => g.payload) = [p] := by
  refine ⟨sendFrame_fragListOf p hp, ?_, ?_, ?_, ?_, ?_, ?_⟩
  · unfold fragListOf
    rw [List.length_map]
    have h := congrArg List.length (chunksFrom_map_fst p.length p 0 (Nat.le_refl _))
    rwa [List.length_map, List.length_range'] at h
  · unfold fragListOf
    rw [List.map_map, List.range_eq_range',
      ← chunksFrom_map_fst p.length p 0 (Nat.le_refl _), List.map_map]
    rfl
  · intro f hf
    obtain ⟨ic, _, rfl⟩ := List.mem_map.mp hf
    exact ⟨rfl, rfl, rfl, rfl⟩
  · unfold fragListOf
    rw [List.map_map, List.range_eq_range',
      ← chunksFrom_map_fst p.length p 0 (Nat.le_refl _), List.map_map]
    rfl
  · unfold fragListOf
    rw [List.map_map]
    exact chunksFrom_flatten p.length p 0 (Nat.le_refl _)
  · intro l hl
    exact processFragList_of_perm p l (Nat.lt_of_le_of_lt (Nat.zero_le _) hp) hl

/-- Witness for C8 at a concrete payload of 1464 bytes: the size
hypothesis holds, `sendFrame` enqueues the canonical fragment list, the
fragment payloads concatenate to the original bytes, and reassembling the
fragments in reversed arrival order recovers the payload. -/
theorem C8_roundtrip_witness :
    maxFragmentSize < (List.replicate 1464 5).length
      ∧ (sendFrame initQueue
          { reliability := .reliableOrdered, orderChannel := 0,
            payload := List.replicate 1464 5 } Priority.normal).enqueued
        = fragListOf (List.replicate 1464 5)
      ∧ ((fragListOf (List.replicate 1464 5)).map (fun f => f.payload)).flatten
        = List.replicate 1464 5
      ∧ (processFragList (fragListOf (List.replicate 1464 5)).reverse).2.map
          (fun g => g.payload) = [List.replicate 1464 5] := by
  have hp : maxFragmentSize < (List.replicate 1464 5).length := by
    rw [List.length_replicate]
    decide
  have h := C8_fragment_split_and_reassembly (List.replicate 1464 5) hp
  exact ⟨hp, h.1, h.2.2.2.2.2.1, h.2.2.2.2.2.2 _ (List.reverse_perm _)⟩

/-- Witness for C9 at a concrete update sequence: an update that only
mentions hunger leaves health and movement speed at their defaults, and an
update mentioning health replaces it. -/
theorem C9_witness :
    healthOf (runUpdates [[⟨"minecraft:player.hunger", 5, 20, 0, 20⟩]]) = 20
      ∧ movementSpeedOf (runUpdates [[⟨"minecraft:player.hunger", 5, 20, 0, 20⟩]])
          = 1 / 10
      ∧ updateAttributes [⟨"minecraft:health", 7, 20, 0, 30⟩] emptyAttrMap
            "minecraft:absorption"
        = emptyAttrMap "minecraft:absorption" := by
  have h := C9_update_attributes_replace_and_defaults
  refine ⟨(h.2.2.1 _ (by decide)).1, h.2.2.2 _ (by decide), h.1 _ _ _ (by decide)⟩

end BedrockClient
